import Mathlib

/-! # friggdb `completeBlock`: point lookup and full scan

A shallow embedding of `friggdb/wal_complete_block.go`.

* Go byte slices are `Option (List Byte)`: `none` is the `nil` slice, `some l` a
  non-nil slice with contents `l`.
* `encoding.UnmarshalObjectFromReader` is not part of the file under study; every
  definition takes it as the parameter `um`, a function from the unread bytes of a
  reader to the Go result triple together with the bytes left unread.
* The `for` loop of `iterateObjects` has no bound of its own, so the embedding
  carries a fuel argument and answers `none` when the fuel runs out.
* The operating system is an explicit `World`: files on disk, the handles opened so
  far, a fault oracle and the trace of library calls.
-/

set_option autoImplicit false

namespace Friggdb

/-! ## Data model -/

/-- One byte. -/
abbrev Byte := Fin 256

/-- A Go `[]byte`: `none` is `nil`. -/
abbrev ByteSlice := Option (List Byte)

/-- Contents of a Go byte slice; `nil` has no bytes. -/
def ByteSlice.bytes : ByteSlice → List Byte
  | none => []
  | some l => l

/-- Go `error` values that are not `nil`. -/
inductive Err where
  | notExist
  | closed
  | eof
  | negativeOffset
  | other (code : Nat)
  deriving DecidableEq, Repr

/-- The type `encoding.Record`: identifier, start offset and length of one span. -/
structure Record where
  ID : ByteSlice
  Start : Nat
  Length : Nat
  deriving DecidableEq, Repr

/-- A `uuid.UUID`, an array of sixteen bytes. -/
structure UUID where
  bytes : List Byte
  size : bytes.length = 16

/-- The fields of `encoding.BlockMeta` that the block reads. -/
structure BlockMeta where
  BlockID : UUID
  TenantID : String

/-- The struct `completeBlock`; `readFile` is the descriptor of the lazily opened
handle, `none` for a `nil` pointer. The bloom filter and the time stamp are carried
as opaque numbers. -/
structure completeBlock where
  meta : BlockMeta
  bloom : Nat
  filepath : String
  records : List Record
  timeWritten : Nat
  readFile : Option Nat

/-! ## Go standard library: `bytes`, `sort`, `fmt` -/

/-- Lexicographic three-way comparison of byte strings. -/
def compareBytes : List Byte → List Byte → Int
  | [], [] => 0
  | [], _ :: _ => -1
  | _ :: _, [] => 1
  | x :: xs, y :: ys => if x < y then -1 else if y < x then 1 else compareBytes xs ys

/-- Go `bytes.Compare`; a `nil` slice compares as the empty slice. -/
def bytesCompare (a b : ByteSlice) : Int := compareBytes a.bytes b.bytes

/-- Go `bytes.Equal`; a `nil` slice equals the empty slice. -/
def bytesEqual (a b : ByteSlice) : Bool := decide (a.bytes = b.bytes)

/-- The loop of Go `sort.Search` on the interval from `i` to `j`. The first argument
bounds the number of iterations; `j - i` iterations are always enough because every
iteration at least halves the interval. -/
def searchLoop (f : Nat → Bool) : Nat → Nat → Nat → Nat
  | 0, i, _ => i
  | fuel + 1, i, j =>
    if i < j then
      let h := (i + j) / 2
      if !f h then searchLoop f fuel (h + 1) j else searchLoop f fuel i h
    else i

/-- Go `sort.Search`. -/
def sortSearch (n : Nat) (f : Nat → Bool) : Nat := searchLoop f n 0 n

/-- One lower-case hexadecimal digit. -/
def hexDigit (n : Nat) : Char :=
  match n with
  | 0 => '0' | 1 => '1' | 2 => '2' | 3 => '3' | 4 => '4' | 5 => '5' | 6 => '6' | 7 => '7'
  | 8 => '8' | 9 => '9' | 10 => 'a' | 11 => 'b' | 12 => 'c' | 13 => 'd' | 14 => 'e'
  | _ => 'f'

/-- Hexadecimal rendering of a byte string, two digits per byte. -/
def hexBytes : List Byte → List Char
  | [] => []
  | b :: bs => hexDigit (b.val / 16) :: hexDigit (b.val % 16) :: hexBytes bs

/-- The method `String` of `uuid.UUID`, which `%v` prints: the canonical form with
groups of 8, 4, 4, 4 and 12 hexadecimal digits. -/
def UUID.render (u : UUID) : List Char :=
  hexBytes (u.bytes.take 4) ++ '-' :: hexBytes ((u.bytes.drop 4).take 2)
    ++ '-' :: hexBytes ((u.bytes.drop 6).take 2)
    ++ '-' :: hexBytes ((u.bytes.drop 8).take 2)
    ++ '-' :: hexBytes (u.bytes.drop 10)

/-- Go conversion `int64(x)` of a `uint64`. -/
def int64 (x : Nat) : Int :=
  if x % 2 ^ 64 < 2 ^ 63 then ((x % 2 ^ 64 : Nat) : Int) else ((x % 2 ^ 64 : Nat) : Int) - 2 ^ 64

/-! ## Operating system -/

/-- What stands behind an `*os.File`: the name it was opened under, the bytes of the
file it refers to and whether it has been closed. -/
structure Handle where
  name : String
  data : List Byte
  closed : Bool

/-- A call into package `os`, as recorded in the trace. -/
inductive Event where
  | openFile (name : String) (fd : Option Nat)
  | readAt (fd : Nat) (off : Int) (len : Nat)
  | read (fd : Nat)
  | close (fd : Nat)
  | remove (name : String)
  deriving DecidableEq, Repr

/-- State of the operating system. `disk` maps the names of the files that exist to
their contents, `handles` lists every handle opened so far (a descriptor is an index
into it), `fault n` is the error injected into the call made when the trace has
length `n`, and `trace` records the calls made. -/
structure World where
  disk : String → Option (List Byte)
  handles : List Handle
  fault : Nat → Option Err
  trace : List Event

/-- Appends a call to the trace. -/
def World.log (w : World) (e : Event) : World :=
  { w with trace := w.trace ++ [e] }

/-- Go `os.OpenFile(name, os.O_RDONLY, 0644)`: the new descriptor or the error. -/
def osOpenFile (w : World) (name : String) : Except Err Nat × World :=
  match w.fault w.trace.length with
  | some e => (Except.error e, w.log (Event.openFile name none))
  | none =>
    match w.disk name with
    | none => (Except.error Err.notExist, w.log (Event.openFile name none))
    | some data =>
      let fd := w.handles.length
      (Except.ok fd,
        { (w.log (Event.openFile name (some fd))) with
            handles := w.handles ++ [{ name := name, data := data, closed := false }] })

/-- Go `(*os.File).ReadAt` on a buffer of `len` bytes: the buffer contents when the
read filled it, the error otherwise. The offset is checked first; an empty buffer
needs no read and so succeeds even on a closed handle; a read on a closed handle
fails; a read that meets the end of the file before the buffer is full reports
`io.EOF`. -/
def osReadAt (w : World) (fd : Nat) (len : Nat) (off : Int) : Except Err (List Byte) × World :=
  let w1 := w.log (Event.readAt fd off len)
  match w.handles[fd]? with
  | none => (Except.error Err.closed, w1)
  | some h =>
    if off < 0 then (Except.error Err.negativeOffset, w1)
    else if len = 0 then (Except.ok [], w1)
    else if h.closed then (Except.error Err.closed, w1)
    else
      match w.fault w.trace.length with
      | some e => (Except.error e, w1)
      | none =>
        if off.toNat + len ≤ h.data.length then
          (Except.ok ((h.data.drop off.toNat).take len), w1)
        else (Except.error Err.eof, w1)

/-- The bytes a reader over a freshly opened handle delivers: the file from its
first byte on. -/
def osStream (w : World) (fd : Nat) : List Byte :=
  match w.handles[fd]? with
  | none => []
  | some h => h.data

/-- Marks a handle as closed. -/
def closeHandle : List Handle → Nat → List Handle
  | [], _ => []
  | h :: hs, 0 => { h with closed := true } :: hs
  | h :: hs, fd + 1 => h :: closeHandle hs fd

/-- Go `(*os.File).Close`: the error, if any. -/
def osClose (w : World) (fd : Nat) : Option Err × World :=
  let w1 := w.log (Event.close fd)
  match w.handles[fd]? with
  | none => (some Err.closed, w1)
  | some h =>
    if h.closed then (some Err.closed, w1)
    else
      match w.fault w.trace.length with
      | some e => (some e, { w1 with handles := closeHandle w.handles fd })
      | none => (none, { w1 with handles := closeHandle w.handles fd })

/-- Go `os.Remove`: the error, if any. -/
def osRemove (w : World) (name : String) : Option Err × World :=
  let w1 := w.log (Event.remove name)
  match w.fault w.trace.length with
  | some e => (some e, w1)
  | none =>
    match w.disk name with
    | none => (some Err.notExist, w1)
    | some _ => (none, { w1 with disk := fun n => if n = name then none else w.disk n })

/-! ## Object codec and visitors -/

/-- Result of one call of `encoding.UnmarshalObjectFromReader`: the Go triple
`(id, b, err)` and the bytes the reader still holds after the call. -/
structure Unmarshalled where
  id : ByteSlice
  b : ByteSlice
  err : Option Err
  rest : List Byte

/-- Result of one call of an `IterFunc`: the Go pair `(more, err)` and the state the
closure has captured after the call. -/
structure Visit (σ : Type) where
  more : Bool
  err : Option Err
  st : σ

/-- The type `IterFunc`, a closure over a state of type `σ`. -/
abbrev IterFunc (σ : Type) := σ → ByteSlice → ByteSlice → Visit σ

/-- What `iterateObjects` returns and leaves behind: the error, the unread bytes of
the reader and the state of the visitor. Two observation fields record how many
times the decoder ran and with which arguments the visitor was called. -/
structure IterResult (σ : Type) where
  err : Option Err
  reader : List Byte
  st : σ
  decodes : Nat
  calls : List (ByteSlice × ByteSlice)

/-! ## The block -/

/-- The method `fullFilename`: `fmt.Sprintf("%s/%v:%v", filepath, BlockID, TenantID)`. -/
def fullFilename (c : completeBlock) : String :=
  c.filepath ++ "/" ++ String.mk c.meta.BlockID.render ++ ":" ++ c.meta.TenantID

/-- Result of `readRecordBytes`: the Go pair `(b, err)`, the block and the system. -/
structure ReadResult where
  b : ByteSlice
  err : Option Err
  c : completeBlock
  w : World

/-- Second half of `readRecordBytes`: `make` the buffer and `ReadAt` into it. -/
def readSpan (c : completeBlock) (w : World) (fd : Nat) (r : Record) : ReadResult :=
  match osReadAt w fd r.Length (int64 r.Start) with
  | (Except.error err, w1) => ⟨none, some err, c, w1⟩
  | (Except.ok b, w1) => ⟨some b, none, c, w1⟩

/-- The method `readRecordBytes`. -/
def readRecordBytes (c : completeBlock) (w : World) (r : Record) : ReadResult :=
  match c.readFile with
  | none =>
    match osOpenFile w (fullFilename c) with
    | (Except.error err, w1) => ⟨none, some err, c, w1⟩
    | (Except.ok f, w1) => readSpan { c with readFile := some f } w1 f r
  | some f => readSpan c w f r

/-- The function `iterateObjects`. Each unit of fuel pays for one turn of the loop;
`none` means the fuel ran out before the loop ended. -/
def iterateObjects {σ : Type} (um : List Byte → Unmarshalled) (fn : IterFunc σ) :
    Nat → List Byte → σ → Option (IterResult σ)
  | 0, _, _ => none
  | fuel + 1, reader, st =>
    let u := um reader
    match u.err with
    | some err => some ⟨some err, u.rest, st, 1, []⟩
    | none =>
      match u.id with
      | none => some ⟨none, u.rest, st, 1, []⟩
      | some id =>
        let v := fn st (some id) u.b
        match v.err with
        | some err => some ⟨some err, u.rest, v.st, 1, [(some id, u.b)]⟩
        | none =>
          if !v.more then some ⟨none, u.rest, v.st, 1, [(some id, u.b)]⟩
          else
            match iterateObjects um fn fuel u.rest v.st with
            | none => none
            | some r =>
              some ⟨r.err, r.reader, r.st, r.decodes + 1, (some id, u.b) :: r.calls⟩

/-- The closure `Find` passes to `iterateObjects`; its state is `foundObject`. -/
def findVisitor (id : ByteSlice) : IterFunc ByteSlice :=
  fun foundObject foundID b =>
    if bytesEqual foundID id then ⟨false, none, b⟩ else ⟨true, none, foundObject⟩

/-- The index `Find` computes with `sort.Search`. The closure is only ever called
below `len(c.records)`. -/
def findIndex (c : completeBlock) (id : ByteSlice) : Nat :=
  sortSearch c.records.length fun idx =>
    match c.records[idx]? with
    | some r => decide (0 ≤ bytesCompare r.ID id)
    | none => false

/-- Result of `Find`: the Go pair `(b, err)`, the block and the system afterwards,
and the number of decoder calls made. -/
structure FindResult where
  b : ByteSlice
  err : Option Err
  c : completeBlock
  w : World
  decodes : Nat

/-- The method `Find`. -/
def Find (um : List Byte → Unmarshalled) (fuel : Nat) (c : completeBlock) (w : World)
    (id : ByteSlice) : Option FindResult :=
  let i := findIndex c id
  match c.records[i]? with
  | none => some ⟨none, none, c, w, 0⟩
  | some rec =>
    let rd := readRecordBytes c w rec
    match rd.err with
    | some err => some ⟨none, some err, rd.c, rd.w, 0⟩
    | none =>
      match iterateObjects um (findVisitor id) fuel rd.b.bytes none with
      | none => none
      | some it =>
        match it.err with
        | some err => some ⟨none, some err, rd.c, rd.w, it.decodes⟩
        | none => some ⟨it.st, none, rd.c, rd.w, it.decodes⟩

/-- Result of `Iterator`: the error, the visitor state, the block and the system
afterwards, and the observation fields of the loop. -/
structure IteratorResult (σ : Type) where
  err : Option Err
  st : σ
  c : completeBlock
  w : World
  decodes : Nat
  calls : List (ByteSlice × ByteSlice)

/-- The method `Iterator`. The deferred `Close` runs on every path after the open
succeeded and its error is dropped. -/
def Iterator {σ : Type} (um : List Byte → Unmarshalled) (fn : IterFunc σ) (fuel : Nat)
    (c : completeBlock) (w : World) (st : σ) : Option (IteratorResult σ) :=
  match osOpenFile w (fullFilename c) with
  | (Except.error err, w1) => some ⟨some err, st, c, w1, 0, []⟩
  | (Except.ok f, w1) =>
    match iterateObjects um fn fuel (osStream w1 f) st with
    | none => none
    | some it =>
      let w2 := (osClose (w1.log (Event.read f)) f).2
      some ⟨it.err, it.st, c, w2, it.decodes, it.calls⟩

/-- The method `Clear`. -/
def Clear (c : completeBlock) (w : World) : Option Err × completeBlock × World :=
  match c.readFile with
  | some f =>
    match osClose w f with
    | (some err, w1) => (some err, c, w1)
    | (none, w1) => ((osRemove w1 (fullFilename c)).1, c, (osRemove w1 (fullFilename c)).2)
  | none => ((osRemove w (fullFilename c)).1, c, (osRemove w (fullFilename c)).2)

/-! ## A sample codec and sample blocks -/

/-- Splits the first `n` bytes off a stream, if it holds that many. -/
def splitBytes : Nat → List Byte → Option (List Byte × List Byte)
  | 0, s => some ([], s)
  | _ + 1, [] => none
  | n + 1, x :: s =>
    match splitBytes n s with
    | none => none
    | some (a, r) => some (x :: a, r)

/-- Modelled from the spec: the encoder of the object codec in package `encoding`,
which is not part of the file under study. One length-delimited identifier followed
by one length-delimited payload; the length is written in one byte here. -/
def sampleMarshal (id b : List Byte) : List Byte :=
  Fin.ofNat id.length :: id ++ Fin.ofNat b.length :: b

/-- Modelled from the spec: the decoder `encoding.UnmarshalObjectFromReader`, which
is not part of the file under study. A stream with no byte left is the clean end of
the stream (a `nil` identifier and no error); a stream that ends inside an object is
an error. -/
def sampleUnmarshal : List Byte → Unmarshalled
  | [] => ⟨none, none, none, []⟩
  | n :: s =>
    match splitBytes n.val s with
    | none => ⟨none, none, some (Err.other 1), []⟩
    | some (_, []) => ⟨none, none, some (Err.other 1), []⟩
    | some (id, m :: s2) =>
      match splitBytes m.val s2 with
      | none => ⟨none, none, some (Err.other 1), []⟩
      | some (b, rest) => ⟨some id, some b, none, rest⟩

/-! ## Stating the claims: decoded streams, visitor runs, block layouts -/

/-- An object as the decoder hands it over: a non-nil identifier and a payload. -/
abbrev Decoded := List Byte × ByteSlice

/-- The arguments of the visitor calls made for a list of decoded objects. -/
def asCalls (objs : List Decoded) : List (ByteSlice × ByteSlice) :=
  objs.map fun o => (some o.1, o.2)

/-- The decoder, started on the stream `s`, yields the objects `objs` one after
another, each without error, and leaves the stream `r`. -/
def Decodes (um : List Byte → Unmarshalled) : List Byte → List Decoded → List Byte → Prop
  | s, [], r => s = r
  | s, o :: os, r =>
    (um s).err = none ∧ (um s).id = some o.1 ∧ (um s).b = o.2 ∧ Decodes um (um s).rest os r

/-- State of a visitor after it was called on the objects in turn. -/
def visitAll {σ : Type} (fn : IterFunc σ) : σ → List Decoded → σ
  | st, [] => st
  | st, o :: os => visitAll fn (fn st (some o.1) o.2).st os

/-- The visitor answers `(true, nil)` on each of the objects in turn. -/
def Continues {σ : Type} (fn : IterFunc σ) : σ → List Decoded → Prop
  | _, [] => True
  | st, o :: os =>
    (fn st (some o.1) o.2).more = true ∧ (fn st (some o.1) o.2).err = none ∧
      Continues fn (fn st (some o.1) o.2).st os

/-- How a result of the loop looks from outside when `k` objects were decoded and
visited before it. -/
def IterResult.after {σ : Type} (pre : List Decoded) (r : IterResult σ) : IterResult σ :=
  ⟨r.err, r.reader, r.st, r.decodes + pre.length, asCalls pre ++ r.calls⟩


/-- An object as it was written: identifier and payload. -/
abbrev Obj := List Byte × List Byte

/-- The object the decoder is to hand back for a written object. -/
def Obj.decoded (o : Obj) : Decoded := (o.1, some o.2)

/-- Decoding inverts encoding on the given objects: from a stream that starts with
the encoding of one of them the decoder returns that object and leaves what follows. -/
def Inverts (um : List Byte → Unmarshalled) (enc : List Byte → List Byte → List Byte)
    (objs : List Obj) : Prop :=
  ∀ o ∈ objs, ∀ rest : List Byte, um (enc o.1 o.2 ++ rest) = ⟨some o.1, some o.2, none, rest⟩

/-- On a stream with no byte left the decoder signals the end of the stream: a `nil`
identifier and no error. -/
def CleanEnd (um : List Byte → Unmarshalled) : Prop :=
  (um []).err = none ∧ (um []).id = none

/-- The encodings of a list of objects, one after the other. -/
def encodeAll (enc : List Byte → List Byte → List Byte) : List Obj → List Byte
  | [] => []
  | o :: os => enc o.1 o.2 ++ encodeAll enc os

/-- A span of a block file: the identifier its record carries and the objects stored
in it. -/
structure Span where
  ID : List Byte
  objs : List Obj

/-- Modelled from the spec: the block file the writer (not part of the file under
study) leaves behind, a flat concatenation of the encoded objects of all spans. -/
def layoutFile (enc : List Byte → List Byte → List Byte) : List Span → List Byte
  | [] => []
  | sp :: sps => encodeAll enc sp.objs ++ layoutFile enc sps

/-- Modelled from the spec: the record sequence the writer (not part of the file
under study) leaves behind, one record per span, the spans contiguous from offset
`off` on. -/
def layoutRecords (enc : List Byte → List Byte → List Byte) : Nat → List Span → List Record
  | _, [] => []
  | off, sp :: sps =>
    ⟨some sp.ID, off, (encodeAll enc sp.objs).length⟩ ::
      layoutRecords enc (off + (encodeAll enc sp.objs).length) sps

/-- The spans of a dense index: every object is a span of its own, under its own
identifier. -/
def denseSpans (objs : List Obj) : List Span :=
  objs.map fun o => ⟨o.1, [o]⟩

/-- The payload of the first of the objects that carries the identifier, `nil` when
there is none. -/
def lookupObj (id : List Byte) : List Obj → ByteSlice
  | [] => none
  | o :: os => if o.1 = id then some o.2 else lookupObj id os

/-- The system serves the bytes `data` to the block: through the handle the block
holds, when it holds one, and else under the name of its backing file. -/
def Backed (c : completeBlock) (w : World) (data : List Byte) : Prop :=
  match c.readFile with
  | none => w.disk (fullFilename c) = some data
  | some f => ∃ h, w.handles[f]? = some h ∧ h.closed = false ∧ h.data = data

/-- No call into the operating system has an error injected. -/
def NoFault (w : World) : Prop := ∀ n, w.fault n = none

/-- The record identifiers are in ascending order (equal neighbours allowed). -/
def SortedRecords (rs : List Record) : Prop :=
  rs.Pairwise fun a b => bytesCompare a.ID b.ID ≤ 0

instance (rs : List Record) : Decidable (SortedRecords rs) := by
  unfold SortedRecords
  infer_instance

/-- The block is cleared in this system: its backing file does not exist and the
handle the block holds, if it holds one, is closed. -/
def Cleared (c : completeBlock) (w : World) : Prop :=
  w.disk (fullFilename c) = none ∧
    ∀ f h, c.readFile = some f → w.handles[f]? = some h → h.closed = true

/-- What `Find` returns once the scan of the span has ended with `it`, with the block
`c` and the system `w` the span read left behind. -/
def scanAnswer (it : IterResult ByteSlice) (c : completeBlock) (w : World) : FindResult :=
  ⟨match it.err with
    | some _ => none
    | none => it.st,
   it.err, c, w, it.decodes⟩

/-- The block with the handle `f` stored in it and no other field changed. -/
def withHandle (c : completeBlock) (f : Nat) : completeBlock :=
  { c with readFile := some f }

/-- The system after one successful open of the file `name` with the bytes `data`:
one more handle, open, and one more call in the trace. -/
def World.opened (w : World) (name : String) (data : List Byte) : World :=
  ⟨w.disk, w.handles ++ [⟨name, data, false⟩], w.fault,
    w.trace ++ [Event.openFile name (some w.handles.length)]⟩

/-! ## Sample data -/

/-- A block identifier. -/
def sampleUUID : UUID := ⟨[0, 1, 2, 3, 4, 5, 6, 7, 8, 9, 10, 11, 12, 13, 14, 15], rfl⟩

/-- A block without a read handle over the given records. -/
def sampleBlock (rs : List Record) : completeBlock :=
  ⟨⟨sampleUUID, "tenant"⟩, 0, "/var/frigg", rs, 0, none⟩

/-- A system without faults in which every name leads to a file with the given
bytes. -/
def sampleWorld (data : List Byte) : World :=
  ⟨fun _ => some data, [], fun _ => none, []⟩

/-- A block that holds the read handle with descriptor 0 over the given records. -/
def sampleHeldBlock (rs : List Record) : completeBlock :=
  ⟨⟨sampleUUID, "tenant"⟩, 0, "/var/frigg", rs, 0, some 0⟩

/-- A system in which every name leads to a file with the given bytes and one open
handle, descriptor 0, reads them; `fault` is its fault oracle. -/
def sampleHeldWorld (data : List Byte) (fault : Nat → Option Err) : World :=
  ⟨fun _ => some data, [⟨"/var/frigg/held", data, false⟩], fault, []⟩

/-- The objects `(A, a)`, `(B, b)`, `(C, c)`, `(D, d)`. -/
def sampleObjs : List Obj := [([65], [97]), ([66], [98]), ([67], [99]), ([68], [100])]

/-- The dense sample block `[A, B, C, D]` without a handle. -/
def sampleDenseBlock : completeBlock :=
  sampleBlock (layoutRecords sampleMarshal 0 (denseSpans sampleObjs))

/-- The dense sample block with an open handle. -/
def sampleDenseHeld : completeBlock :=
  sampleHeldBlock (layoutRecords sampleMarshal 0 (denseSpans sampleObjs))

/-- The system in which the dense sample block holds its open handle. -/
def sampleDenseWorld : World :=
  sampleHeldWorld (encodeAll sampleMarshal sampleObjs) fun _ => none

/-- A sparse layout of the sample objects: the span of record `A` holds `(A, a)` and
`(B, b)`, the span of record `C` holds `(C, c)` and `(D, d)`. -/
def sparseSpans : List Span :=
  [⟨[65], [([65], [97]), ([66], [98])]⟩, ⟨[67], [([67], [99]), ([68], [100])]⟩]

/-- A sparse layout with a repeated identifier: the span of record `A` holds `(A, a)`
and `(B, b)`, the span of record `B` holds `(B, x)` and `(C, c)`. -/
def repeatSpans : List Span :=
  [⟨[65], [([65], [97]), ([66], [98])]⟩, ⟨[66], [([66], [120]), ([67], [99])]⟩]

/-- A sparse layout with a repeated identifier inside one span: the span of record
`A` holds `(A, a)`, `(B, b)` and `(B, x)`, the span of record `C` holds `(C, c)`. -/
def repeatInnerSpans : List Span :=
  [⟨[65], [([65], [97]), ([66], [98]), ([66], [120])]⟩, ⟨[67], [([67], [99])]⟩]

/-- All objects of a layout in file order. -/
def layoutObjs : List Span → List Obj
  | [] => []
  | sp :: sps => sp.objs ++ layoutObjs sps

/-! ## Order on identifiers and binary search -/

theorem compareBytes_self (a : List Byte) : compareBytes a a = 0 := by
  induction a with
  | nil => rfl
  | cons x xs ih => simp [compareBytes, ih]

theorem compareBytes_eq_zero : ∀ (a b : List Byte), compareBytes a b = 0 → a = b
  | [], [], _ => rfl
  | [], _ :: _, h => by simp [compareBytes] at h
  | _ :: _, [], h => by simp [compareBytes] at h
  | x :: xs, y :: ys, h => by
    simp only [compareBytes] at h
    rcases lt_trichotomy x y with hxy | hxy | hxy
    · simp [hxy] at h
    · subst hxy
      simp only [lt_irrefl, if_false] at h
      rw [compareBytes_eq_zero xs ys h]
    · simp [hxy, lt_asymm hxy] at h

theorem compareBytes_swap : ∀ (a b : List Byte), compareBytes b a = - compareBytes a b
  | [], [] => rfl
  | [], _ :: _ => rfl
  | _ :: _, [] => rfl
  | x :: xs, y :: ys => by
    simp only [compareBytes]
    split_ifs with h1 h2 h3
    · exact absurd h1 (lt_asymm h2)
    · rfl
    · rfl
    · exact compareBytes_swap xs ys

theorem compareBytes_trans : ∀ (a b c : List Byte),
    compareBytes a b ≤ 0 → compareBytes b c ≤ 0 → compareBytes a c ≤ 0
  | [], _, [], _, _ => by simp [compareBytes]
  | [], _, _ :: _, _, _ => by simp [compareBytes]
  | _ :: _, [], _, h, _ => by simp [compareBytes] at h
  | _ :: _, _ :: _, [], _, h => by simp [compareBytes] at h
  | x :: xs, y :: ys, z :: zs, h1, h2 => by
    simp only [compareBytes] at h1 h2 ⊢
    rcases lt_trichotomy x y with hxy | hxy | hxy
    · rcases lt_trichotomy y z with hyz | hyz | hyz
      · simp [lt_trans hxy hyz]
      · subst hyz; simp [hxy]
      · simp [hyz, lt_asymm hyz] at h2
    · subst hxy
      rcases lt_trichotomy x z with hyz | hyz | hyz
      · simp [hyz]
      · subst hyz
        simp only [lt_irrefl, if_false] at h1 h2 ⊢
        exact compareBytes_trans xs ys zs h1 h2
      · simp [hyz, lt_asymm hyz] at h2
    · simp [hxy, lt_asymm hxy] at h1

theorem compareBytes_lt_of_lt_of_le (a b c : List Byte)
    (h1 : compareBytes a b < 0) (h2 : compareBytes b c ≤ 0) : compareBytes a c < 0 := by
  have h3 := compareBytes_trans a b c (le_of_lt h1) h2
  rcases lt_or_eq_of_le h3 with h | h
  · exact h
  · have := compareBytes_eq_zero a c h
    subst this
    have h4 := compareBytes_swap a b
    have h5 : compareBytes a b = 0 := by omega
    omega

theorem compareBytes_lt_of_le_of_lt (a b c : List Byte)
    (h1 : compareBytes a b ≤ 0) (h2 : compareBytes b c < 0) : compareBytes a c < 0 := by
  have h3 := compareBytes_trans a b c h1 (le_of_lt h2)
  rcases lt_or_eq_of_le h3 with h | h
  · exact h
  · have := compareBytes_eq_zero a c h
    subst this
    have h4 := compareBytes_swap a b
    have h5 : compareBytes a b = 0 := by omega
    omega

theorem searchLoop_spec (f : Nat → Bool) (n : Nat)
    (hmono : ∀ a b, a ≤ b → b < n → f a = true → f b = true) :
    ∀ (fuel i j : Nat), j - i ≤ fuel → i ≤ j → j ≤ n →
      (∀ k, k < i → f k = false) → (∀ k, j ≤ k → k < n → f k = true) →
      searchLoop f fuel i j ≤ n ∧ (∀ k, k < searchLoop f fuel i j → f k = false) ∧
        (∀ k, searchLoop f fuel i j ≤ k → k < n → f k = true) := by
  intro fuel
  induction fuel with
  | zero =>
    intro i j hf hij hjn hlo hhi
    have : i = j := by omega
    subst this
    exact ⟨hjn, hlo, hhi⟩
  | succ fuel ih =>
    intro i j hf hij hjn hlo hhi
    unfold searchLoop
    by_cases hlt : i < j
    · simp only [hlt, if_true]
      have hh1 : i ≤ (i + j) / 2 := by omega
      have hh2 : (i + j) / 2 < j := by omega
      cases hfh : f ((i + j) / 2) with
      | false =>
        simp only [Bool.not_false, if_true]
        refine ih _ _ (by omega) (by omega) hjn ?_ hhi
        intro k hk
        cases hfk : f k with
        | false => rfl
        | true =>
          have := hmono k ((i + j) / 2) (by omega) (by omega) hfk
          rw [hfh] at this
          exact absurd this (by simp)
      | true =>
        simp only [Bool.not_true, Bool.false_eq_true, if_false]
        refine ih _ _ (by omega) (by omega) (by omega) hlo ?_
        intro k hk hkn
        exact hmono _ k hk hkn hfh
    · simp only [hlt, if_false]
      have : i = j := by omega
      subst this
      exact ⟨hjn, hlo, hhi⟩

theorem sortSearch_spec (f : Nat → Bool) (n : Nat)
    (hmono : ∀ a b, a ≤ b → b < n → f a = true → f b = true) :
    sortSearch n f ≤ n ∧ (∀ k, k < sortSearch n f → f k = false) ∧
      (∀ k, sortSearch n f ≤ k → k < n → f k = true) :=
  searchLoop_spec f n hmono n 0 n (by omega) (by omega) (le_refl n)
    (fun k hk => absurd hk (by omega)) (fun k hk hkn => absurd hkn (by omega))

theorem sortSearch_eq (f : Nat → Bool) (n m : Nat)
    (hmono : ∀ a b, a ≤ b → b < n → f a = true → f b = true)
    (hm : m ≤ n) (hlo : ∀ k, k < m → f k = false) (hhi : m < n → f m = true) :
    sortSearch n f = m := by
  obtain ⟨h1, h2, h3⟩ := sortSearch_spec f n hmono
  rcases Nat.lt_trichotomy (sortSearch n f) m with h | h | h
  · have a := h3 (sortSearch n f) (le_refl _) (by omega)
    have b := hlo _ h
    rw [a] at b
    exact absurd b (by simp)
  · exact h
  · have a := h2 m h
    have b := hhi (by omega)
    rw [a] at b
    exact absurd b (by simp)

/-! ## The loop of `iterateObjects` -/

theorem iterate_through {σ : Type} (um : List Byte → Unmarshalled) (fn : IterFunc σ) :
    ∀ (objs : List Decoded) (s r : List Byte) (st : σ) (fuel : Nat),
      Decodes um s objs r → Continues fn st objs →
      iterateObjects um fn (objs.length + fuel) s st =
        (iterateObjects um fn fuel r (visitAll fn st objs)).map (IterResult.after objs) := by
  intro objs
  induction objs with
  | nil =>
    intro s r st fuel hd _
    simp only [Decodes] at hd
    subst hd
    cases h : iterateObjects um fn fuel s st <;>
      simp [visitAll, IterResult.after, asCalls, h]
  | cons o os ih =>
    intro s r st fuel hd hc
    obtain ⟨h1, h2, h3, h4⟩ := hd
    obtain ⟨c1, c2, c3⟩ := hc
    have hlen : (o :: os).length + fuel = (os.length + fuel) + 1 := by
      simp only [List.length_cons]; omega
    rw [hlen]
    simp only [iterateObjects, h1, h2, h3, c1, c2, Bool.not_true, Bool.false_eq_true, if_false]
    rw [ih _ _ _ _ h4 c3]
    cases h : iterateObjects um fn fuel r (visitAll fn (fn st (some o.1) o.2).st os) <;>
      simp [visitAll, IterResult.after, asCalls, h]
    omega

theorem iterate_decode_err {σ : Type} (um : List Byte → Unmarshalled) (fn : IterFunc σ)
    (s : List Byte) (st : σ) (fuel : Nat) (e : Err) (h : (um s).err = some e) :
    iterateObjects um fn (fuel + 1) s st = some ⟨some e, (um s).rest, st, 1, []⟩ := by
  simp [iterateObjects, h]

theorem iterate_eof {σ : Type} (um : List Byte → Unmarshalled) (fn : IterFunc σ)
    (s : List Byte) (st : σ) (fuel : Nat) (h1 : (um s).err = none) (h2 : (um s).id = none) :
    iterateObjects um fn (fuel + 1) s st = some ⟨none, (um s).rest, st, 1, []⟩ := by
  simp [iterateObjects, h1, h2]

theorem iterate_visit_err {σ : Type} (um : List Byte → Unmarshalled) (fn : IterFunc σ)
    (s : List Byte) (st : σ) (fuel : Nat) (id : List Byte) (e : Err)
    (h1 : (um s).err = none) (h2 : (um s).id = some id)
    (h3 : (fn st (some id) (um s).b).err = some e) :
    iterateObjects um fn (fuel + 1) s st =
      some ⟨some e, (um s).rest, (fn st (some id) (um s).b).st, 1, [(some id, (um s).b)]⟩ := by
  simp [iterateObjects, h1, h2, h3]

theorem iterate_stop {σ : Type} (um : List Byte → Unmarshalled) (fn : IterFunc σ)
    (s : List Byte) (st : σ) (fuel : Nat) (id : List Byte)
    (h1 : (um s).err = none) (h2 : (um s).id = some id)
    (h3 : (fn st (some id) (um s).b).err = none)
    (h4 : (fn st (some id) (um s).b).more = false) :
    iterateObjects um fn (fuel + 1) s st =
      some ⟨none, (um s).rest, (fn st (some id) (um s).b).st, 1, [(some id, (um s).b)]⟩ := by
  simp [iterateObjects, h1, h2, h3, h4]

theorem decodes_append (um : List Byte → Unmarshalled) :
    ∀ (pre post : List Decoded) (s r : List Byte),
      Decodes um s (pre ++ post) r ↔ ∃ m, Decodes um s pre m ∧ Decodes um m post r := by
  intro pre
  induction pre with
  | nil =>
    intro post s r
    simp [Decodes]
  | cons o os ih =>
    intro post s r
    show ((um s).err = none ∧ (um s).id = some o.1 ∧ (um s).b = o.2 ∧
      Decodes um (um s).rest (os ++ post) r) ↔ _
    rw [ih]
    simp only [Decodes]
    constructor
    · rintro ⟨h1, h2, h3, m, h4, h5⟩
      exact ⟨m, ⟨h1, h2, h3, h4⟩, h5⟩
    · rintro ⟨m, ⟨h1, h2, h3, h4⟩, h5⟩
      exact ⟨h1, h2, h3, m, h4, h5⟩

theorem visitAll_append {σ : Type} (fn : IterFunc σ) :
    ∀ (pre post : List Decoded) (st : σ),
      visitAll fn st (pre ++ post) = visitAll fn (visitAll fn st pre) post := by
  intro pre
  induction pre with
  | nil => intro post st; rfl
  | cons o os ih => intro post st; simp [visitAll, ih]

theorem decodes_encodeAll (um : List Byte → Unmarshalled)
    (enc : List Byte → List Byte → List Byte) :
    ∀ (objs : List Obj) (rest : List Byte), Inverts um enc objs →
      Decodes um (encodeAll enc objs ++ rest) (objs.map Obj.decoded) rest := by
  intro objs
  induction objs with
  | nil => intro rest _; simp [encodeAll, Decodes]
  | cons o os ih =>
    intro rest hinv
    have ho := hinv o (List.mem_cons_self _ _) (encodeAll enc os ++ rest)
    have hos : Inverts um enc os := fun x hx => hinv x (List.mem_cons_of_mem _ hx)
    simp only [encodeAll, List.append_assoc, List.map_cons, Decodes, ho, Obj.decoded, true_and]
    exact ih rest hos

theorem osOpenFile_ok (w : World) (name : String) (data : List Byte)
    (hf : w.fault w.trace.length = none) (hd : w.disk name = some data) :
    (osOpenFile w name).1 = Except.ok w.handles.length ∧
      (osOpenFile w name).2.handles = w.handles ++ [⟨name, data, false⟩] ∧
      (osOpenFile w name).2.fault = w.fault ∧
      (osOpenFile w name).2.trace = w.trace ++ [Event.openFile name (some w.handles.length)] ∧
      (osOpenFile w name).2.disk = w.disk := by
  simp [osOpenFile, hf, hd, World.log]

theorem osStream_open (w : World) (name : String) (data : List Byte)
    (hf : w.fault w.trace.length = none) (hd : w.disk name = some data) :
    osStream (osOpenFile w name).2 w.handles.length = data := by
  obtain ⟨_, h2, _⟩ := osOpenFile_ok w name data hf hd
  simp [osStream, h2]

theorem iterator_ok {σ : Type} (um : List Byte → Unmarshalled) (fn : IterFunc σ) (fuel : Nat)
    (c : completeBlock) (w : World) (st : σ) (data : List Byte) (it : IterResult σ)
    (hf : w.fault w.trace.length = none) (hd : w.disk (fullFilename c) = some data)
    (hit : iterateObjects um fn fuel data st = some it) :
    (Iterator um fn fuel c w st).map (fun x => (x.err, x.st, x.decodes, x.calls)) =
      some (it.err, it.st, it.decodes, it.calls) := by
  have h1 := osOpenFile_ok w (fullFilename c) data hf hd
  have h2 := osStream_open w (fullFilename c) data hf hd
  unfold Iterator
  rcases hop : osOpenFile w (fullFilename c) with ⟨res, w1⟩
  rw [hop] at h1 h2
  simp only at h1 h2
  rw [h1.1]
  simp [h2, hit]

theorem sample_inverts : Inverts sampleUnmarshal sampleMarshal sampleObjs := by
  intro o ho rest
  simp only [sampleObjs, List.mem_cons, List.mem_singleton, List.not_mem_nil, or_false] at ho
  rcases ho with rfl | rfl | rfl | rfl <;> rfl

theorem sample_cleanEnd : CleanEnd sampleUnmarshal := ⟨rfl, rfl⟩

theorem continues_of_always {σ : Type} (fn : IterFunc σ)
    (hfn : ∀ s id b, (fn s id b).more = true ∧ (fn s id b).err = none) :
    ∀ (objs : List Decoded) (st : σ), Continues fn st objs := by
  intro objs
  induction objs with
  | nil => intro st; trivial
  | cons o os ih => intro st; exact ⟨(hfn _ _ _).1, (hfn _ _ _).2, ih _⟩

theorem iterate_all {σ : Type} (um : List Byte → Unmarshalled) (fn : IterFunc σ)
    (objs : List Decoded) (s r : List Byte) (st : σ) (fuel : Nat)
    (hdec : Decodes um s objs r) (hcont : Continues fn st objs)
    (h1 : (um r).err = none) (h2 : (um r).id = none) (hfuel : objs.length + 1 ≤ fuel) :
    iterateObjects um fn fuel s st =
      some ⟨none, (um r).rest, visitAll fn st objs, objs.length + 1, asCalls objs⟩ := by
  obtain ⟨k, rfl⟩ : ∃ k, fuel = objs.length + (k + 1) := ⟨fuel - objs.length - 1, by omega⟩
  rw [iterate_through um fn objs s r st (k + 1) hdec hcont, iterate_eof um fn r _ k h1 h2]
  simp [IterResult.after, Nat.add_comm]

theorem iterate_until {σ : Type} (um : List Byte → Unmarshalled) (fn : IterFunc σ)
    (pre : List Decoded) (o : Decoded) (s r : List Byte) (st : σ) (fuel : Nat)
    (hdec : Decodes um s (pre ++ [o]) r) (hcont : Continues fn st pre)
    (hfuel : pre.length + 1 ≤ fuel) :
    ∃ m, Decodes um s pre m ∧ (um m).err = none ∧ (um m).id = some o.1 ∧ (um m).b = o.2 ∧
      (um m).rest = r ∧
      iterateObjects um fn fuel s st =
        (iterateObjects um fn (fuel - pre.length) m (visitAll fn st pre)).map
          (IterResult.after pre) := by
  obtain ⟨m, hm1, hm2⟩ := (decodes_append um pre [o] s r).mp hdec
  obtain ⟨e1, e2, e3, e4⟩ := hm2
  refine ⟨m, hm1, e1, e2, e3, e4, ?_⟩
  have hk : fuel = pre.length + (fuel - pre.length) := by omega
  conv_lhs => rw [hk]
  exact iterate_through um fn pre s m st _ hm1 hcont

theorem iterate_stop_after {σ : Type} (um : List Byte → Unmarshalled)
    (fn : IterFunc σ) (pre : List Decoded) (o : Decoded) (s r : List Byte) (st : σ)
    (fuel : Nat) (hdec : Decodes um s (pre ++ [o]) r) (hcont : Continues fn st pre)
    (hmore : (fn (visitAll fn st pre) (some o.1) o.2).more = false)
    (herr : (fn (visitAll fn st pre) (some o.1) o.2).err = none)
    (hfuel : pre.length + 1 ≤ fuel) :
    iterateObjects um fn fuel s st =
      some ⟨none, r, visitAll fn st (pre ++ [o]), pre.length + 1, asCalls (pre ++ [o])⟩ := by
  obtain ⟨m, _, e1, e2, e3, e4, hrun⟩ := iterate_until um fn pre o s r st fuel hdec hcont hfuel
  obtain ⟨k, hk⟩ : ∃ k, fuel - pre.length = k + 1 := ⟨fuel - pre.length - 1, by omega⟩
  rw [← e3] at hmore herr
  rw [hrun, hk, iterate_stop um fn m _ k o.1 e1 e2 herr hmore]
  simp [IterResult.after, asCalls, visitAll_append, visitAll, e3, e4, Nat.add_comm]

/-- C9. Early stop: when the stream yields the objects `pre` and then `o`, and the
visitor answers `(true, nil)` on each of `pre` and `(false, nil)` on `o`, then
`iterateObjects` returns `nil` after exactly `pre.length + 1` decoder calls and
`pre.length + 1` visitor calls, and leaves the bytes `r` behind the last object
unread, whatever they are; `Iterator` over a file with these bytes does the same. -/
theorem iterateObjects_early_stop {σ : Type} (um : List Byte → Unmarshalled) (fn : IterFunc σ)
    (pre : List Decoded) (o : Decoded) (s r : List Byte) (st : σ) (fuel : Nat)
    (c : completeBlock) (w : World)
    (hdec : Decodes um s (pre ++ [o]) r) (hcont : Continues fn st pre)
    (hmore : (fn (visitAll fn st pre) (some o.1) o.2).more = false)
    (herr : (fn (visitAll fn st pre) (some o.1) o.2).err = none)
    (hfuel : pre.length + 1 ≤ fuel)
    (hf : w.fault w.trace.length = none) (hd : w.disk (fullFilename c) = some s) :
    iterateObjects um fn fuel s st =
        some ⟨none, r, visitAll fn st (pre ++ [o]), pre.length + 1, asCalls (pre ++ [o])⟩ ∧
      (Iterator um fn fuel c w st).map (fun x => (x.err, x.st, x.decodes, x.calls)) =
        some (none, visitAll fn st (pre ++ [o]), pre.length + 1, asCalls (pre ++ [o])) := by
  have hres := iterate_stop_after um fn pre o s r st fuel hdec hcont hmore herr hfuel
  exact ⟨hres, iterator_ok um fn fuel c w st s _ hf hd hres⟩

/-- C9 at a stream with the objects `(A, a)`, `(B, b)` followed by a truncated
object, and a visitor that counts its calls and stops at the second. -/
theorem iterateObjects_early_stop_witness :
    iterateObjects sampleUnmarshal (fun (n : Nat) _ _ => ⟨decide (n + 1 < 2), none, n + 1⟩) 2
        [1, 65, 1, 97, 1, 66, 1, 98, 9] 0 =
        some ⟨none, [9], 2, 2, [(some [65], some [97]), (some [66], some [98])]⟩ ∧
      (Iterator sampleUnmarshal (fun (n : Nat) _ _ => ⟨decide (n + 1 < 2), none, n + 1⟩) 2
        (sampleBlock []) (sampleWorld [1, 65, 1, 97, 1, 66, 1, 98, 9]) 0).map
          (fun x => (x.err, x.st, x.decodes, x.calls)) =
        some (none, 2, 2, [(some [65], some [97]), (some [66], some [98])]) :=
  iterateObjects_early_stop sampleUnmarshal (fun (n : Nat) _ _ => ⟨decide (n + 1 < 2), none, n + 1⟩)
    [([65], some [97])] ([66], some [98]) [1, 65, 1, 97, 1, 66, 1, 98, 9] [9] 0 2
    (sampleBlock []) (sampleWorld [1, 65, 1, 97, 1, 66, 1, 98, 9])
    ⟨rfl, rfl, rfl, rfl, rfl, rfl, rfl⟩ ⟨rfl, rfl, trivial⟩ rfl rfl (by decide) rfl rfl

/-- C10. Visitor errors abort and propagate: when the stream yields the objects
`pre` and then `o`, the visitor answers `(true, nil)` on each of `pre` and returns
the error `e` on `o`, then `iterateObjects` returns exactly `e`; the call on `o` is
the last visitor call and the decoding of `o` the last decoder call, whatever
boolean came with the error and whatever bytes `r` follow. -/
theorem iterateObjects_visitor_error {σ : Type} (um : List Byte → Unmarshalled)
    (fn : IterFunc σ) (pre : List Decoded) (o : Decoded) (s r : List Byte) (st : σ)
    (fuel : Nat) (e : Err)
    (hdec : Decodes um s (pre ++ [o]) r) (hcont : Continues fn st pre)
    (herr : (fn (visitAll fn st pre) (some o.1) o.2).err = some e)
    (hfuel : pre.length + 1 ≤ fuel) :
    iterateObjects um fn fuel s st =
      some ⟨some e, r, visitAll fn st (pre ++ [o]), pre.length + 1, asCalls (pre ++ [o])⟩ := by
  obtain ⟨m, _, e1, e2, e3, e4, hrun⟩ := iterate_until um fn pre o s r st fuel hdec hcont hfuel
  obtain ⟨k, hk⟩ : ∃ k, fuel - pre.length = k + 1 := ⟨fuel - pre.length - 1, by omega⟩
  rw [← e3] at herr
  rw [hrun, hk, iterate_visit_err um fn m _ k o.1 e e1 e2 herr]
  simp [IterResult.after, asCalls, visitAll_append, visitAll, e3, e4, Nat.add_comm]

/-- C10 at the objects `(A, a)`, `(B, b)`, `(C, c)`, `(D, d)` and a visitor that
fails on its second call while asking for more. -/
theorem iterateObjects_visitor_error_witness :
    iterateObjects sampleUnmarshal
        (fun (n : Nat) _ _ => ⟨true, if n = 1 then some (Err.other 7) else none, n + 1⟩) 9
        (encodeAll sampleMarshal sampleObjs) 0 =
      some ⟨some (Err.other 7), [1, 67, 1, 99, 1, 68, 1, 100], 2, 2,
        [(some [65], some [97]), (some [66], some [98])]⟩ :=
  iterateObjects_visitor_error sampleUnmarshal
    (fun (n : Nat) _ _ => ⟨true, if n = 1 then some (Err.other 7) else none, n + 1⟩)
    [([65], some [97])] ([66], some [98]) (encodeAll sampleMarshal sampleObjs)
    [1, 67, 1, 99, 1, 68, 1, 100] 0 9 (Err.other 7)
    ⟨rfl, rfl, rfl, rfl, rfl, rfl, rfl⟩ ⟨rfl, rfl, trivial⟩ rfl (by decide)

/-- C8. Full scan: over a backing file that is the concatenation of the encodings
of `objs`, with a decoder that inverts the encoding on them and signals the end of
the stream on the empty stream, and a visitor that always answers `(true, nil)`,
`Iterator` returns no error; the state the visitor is left in is the one it reaches
by being called once on every written object, in file order, with the written
identifier and payload; the decoder ran once per object and once more for the end
of the stream; and the recorded visitor calls are exactly the written pairs. -/
theorem iterator_visits_every_object {σ : Type} (um : List Byte → Unmarshalled)
    (enc : List Byte → List Byte → List Byte) (fn : IterFunc σ) (objs : List Obj)
    (c : completeBlock) (w : World) (st : σ) (fuel : Nat)
    (hinv : Inverts um enc objs) (hend : CleanEnd um)
    (hfn : ∀ s id b, (fn s id b).more = true ∧ (fn s id b).err = none)
    (hf : w.fault w.trace.length = none)
    (hd : w.disk (fullFilename c) = some (encodeAll enc objs))
    (hfuel : objs.length + 1 ≤ fuel) :
    (Iterator um fn fuel c w st).map (fun x => (x.err, x.st, x.decodes, x.calls)) =
      some (none, visitAll fn st (objs.map Obj.decoded), objs.length + 1,
        objs.map fun o => (some o.1, some o.2)) := by
  have hdec := decodes_encodeAll um enc objs [] hinv
  rw [List.append_nil] at hdec
  have hrun := iterate_all um fn (objs.map Obj.decoded) _ [] st fuel hdec
    (continues_of_always fn hfn _ _) hend.1 hend.2 (by simpa using hfuel)
  rw [iterator_ok um fn fuel c w st _ _ hf hd hrun]
  simp [asCalls, Obj.decoded]

/-- C8 at the block `[A, B, C, D]` with payloads `[a, b, c, d]` and a visitor that
appends the identifier and payload it is called with to its state: the state it is
left in is `[(A, a), (B, b), (C, c), (D, d)]`. -/
theorem iterator_visits_every_object_witness :
    (Iterator sampleUnmarshal
        (fun (seen : List (ByteSlice × ByteSlice)) id b => ⟨true, none, seen ++ [(id, b)]⟩) 5
        (sampleBlock []) (sampleWorld (encodeAll sampleMarshal sampleObjs)) []).map
        (fun x => (x.err, x.st, x.decodes, x.calls)) =
      some (none,
        [(some [65], some [97]), (some [66], some [98]), (some [67], some [99]),
          (some [68], some [100])],
        5,
        [(some [65], some [97]), (some [66], some [98]), (some [67], some [99]),
          (some [68], some [100])]) :=
  iterator_visits_every_object sampleUnmarshal sampleMarshal
    (fun (seen : List (ByteSlice × ByteSlice)) id b => ⟨true, none, seen ++ [(id, b)]⟩)
    sampleObjs (sampleBlock []) (sampleWorld (encodeAll sampleMarshal sampleObjs)) [] 5
    sample_inverts sample_cleanEnd (fun _ _ _ => ⟨rfl, rfl⟩) rfl rfl (by decide)

/-! ## Reading a span -/

theorem int64_of_lt (x : Nat) (h : x < 2 ^ 63) : int64 x = (x : Int) := by
  have h1 : x % 2 ^ 64 = x := Nat.mod_eq_of_lt (by omega)
  unfold int64
  rw [h1, if_pos h]

theorem osReadAt_ok (w : World) (fd : Nat) (h : Handle) (start len : Nat)
    (hh : w.handles[fd]? = some h) (hc : h.closed = false) (hnf : NoFault w)
    (hlen : start + len ≤ h.data.length) :
    (osReadAt w fd len (start : Int)).1 = Except.ok ((h.data.drop start).take len) := by
  have hoff : ¬ ((start : Int) < 0) := by omega
  unfold osReadAt
  simp only [hh, hc, Bool.false_eq_true, if_false, hnf _, hoff]
  by_cases h0 : len = 0
  · subst h0
    simp
  · simp [h0, hlen]

theorem readSpan_ok (c : completeBlock) (w : World) (fd : Nat) (h : Handle) (r : Record)
    (hh : w.handles[fd]? = some h) (hc : h.closed = false) (hnf : NoFault w)
    (hlen : r.Start + r.Length ≤ h.data.length) (hs : r.Start < 2 ^ 63) :
    (readSpan c w fd r).err = none ∧
      (readSpan c w fd r).b = some ((h.data.drop r.Start).take r.Length) ∧
      (readSpan c w fd r).c = c := by
  have h1 := osReadAt_ok w fd h r.Start r.Length hh hc hnf hlen
  unfold readSpan
  rw [int64_of_lt _ hs]
  rcases hr : osReadAt w fd r.Length (r.Start : Int) with ⟨res, w1⟩
  rw [hr] at h1
  simp only at h1
  subst h1
  exact ⟨rfl, rfl, rfl⟩

theorem readRecordBytes_ok (c : completeBlock) (w : World) (data : List Byte) (r : Record)
    (hb : Backed c w data) (hnf : NoFault w)
    (hlen : r.Start + r.Length ≤ data.length) (hs : r.Start < 2 ^ 63) :
    (readRecordBytes c w r).err = none ∧
      (readRecordBytes c w r).b = some ((data.drop r.Start).take r.Length) := by
  unfold readRecordBytes
  unfold Backed at hb
  cases hrf : c.readFile with
  | some f =>
    rw [hrf] at hb
    obtain ⟨h, hh, hc, hd⟩ := hb
    subst hd
    obtain ⟨a, b, _⟩ := readSpan_ok c w f h r hh hc hnf hlen hs
    exact ⟨a, b⟩
  | none =>
    rw [hrf] at hb
    simp only at hb
    obtain ⟨o1, o2, o3, _, _⟩ := osOpenFile_ok w (fullFilename c) data (hnf _) hb
    rcases hop : osOpenFile w (fullFilename c) with ⟨res, w1⟩
    rw [hop] at o1 o2 o3
    simp only at o1 o2 o3
    subst o1
    have hh : w1.handles[w.handles.length]? = some ⟨fullFilename c, data, false⟩ := by
      rw [o2]; simp
    have hnf1 : NoFault w1 := fun n => by rw [o3]; exact hnf n
    obtain ⟨a, b, _⟩ := readSpan_ok { c with readFile := some w.handles.length } w1
      w.handles.length _ r hh rfl hnf1 hlen hs
    exact ⟨a, b⟩

theorem find_of_scan (um : List Byte → Unmarshalled) (fuel : Nat) (c : completeBlock)
    (w : World) (id : ByteSlice) (rec : Record) (span : List Byte)
    (hrec : c.records[findIndex c id]? = some rec)
    (herr : (readRecordBytes c w rec).err = none)
    (hb : (readRecordBytes c w rec).b = some span) :
    Find um fuel c w id =
      (iterateObjects um (findVisitor id) fuel span none).map fun it =>
        ⟨match it.err with
          | some _ => none
          | none => it.st,
         it.err, (readRecordBytes c w rec).c, (readRecordBytes c w rec).w, it.decodes⟩ := by
  unfold Find
  simp only [hrec, herr, hb, ByteSlice.bytes]
  cases hit : iterateObjects um (findVisitor id) fuel span none with
  | none => rfl
  | some it =>
    cases he : it.err <;> simp [he]

theorem sorted_index (rs : List Record) (hs : SortedRecords rs) (i j : Nat) (a b : Record)
    (hij : i ≤ j) (ha : rs[i]? = some a) (hb : rs[j]? = some b) :
    bytesCompare a.ID b.ID ≤ 0 := by
  rcases Nat.lt_or_ge i j with h | h
  · obtain ⟨hi, rfl⟩ := List.getElem?_eq_some.mp ha
    obtain ⟨hj, rfl⟩ := List.getElem?_eq_some.mp hb
    exact (List.pairwise_iff_getElem.mp hs) i j hi hj h
  · have : i = j := by omega
    subst this
    rw [ha] at hb
    cases hb
    simp [bytesCompare, compareBytes_self]

theorem findIndex_spec (c : completeBlock) (id : ByteSlice) (hs : SortedRecords c.records) :
    findIndex c id ≤ c.records.length ∧
      (∀ k r, k < findIndex c id → c.records[k]? = some r → bytesCompare r.ID id < 0) ∧
      (∀ k r, findIndex c id ≤ k → c.records[k]? = some r → 0 ≤ bytesCompare r.ID id) := by
  have hmono : ∀ a b, a ≤ b → b < c.records.length →
      (fun idx => match c.records[idx]? with
        | some r => decide (0 ≤ bytesCompare r.ID id)
        | none => false) a = true →
      (fun idx => match c.records[idx]? with
        | some r => decide (0 ≤ bytesCompare r.ID id)
        | none => false) b = true := by
    intro a b hab hb hfa
    have ha : a < c.records.length := by omega
    simp only [List.getElem?_eq_getElem ha, List.getElem?_eq_getElem hb, decide_eq_true_eq]
      at hfa ⊢
    have h1 := sorted_index c.records hs a b c.records[a] c.records[b] hab (List.getElem?_eq_getElem ha)
      (List.getElem?_eq_getElem hb)
    unfold bytesCompare at h1 hfa ⊢
    have h2 := compareBytes_swap c.records[a].ID.bytes id.bytes
    have h3 := compareBytes_swap c.records[b].ID.bytes id.bytes
    have h4 := compareBytes_trans id.bytes c.records[a].ID.bytes c.records[b].ID.bytes
      (by omega) h1
    omega
  obtain ⟨h1, h2, h3⟩ := sortSearch_spec _ c.records.length hmono
  refine ⟨h1, ?_, ?_⟩
  · intro k r hk hr
    have := h2 k hk
    simp only [hr, decide_eq_false_iff_not, not_le] at this
    exact this
  · intro k r hk hr
    have hkn : k < c.records.length := by
      rcases Nat.lt_or_ge k c.records.length with h | h
      · exact h
      · rw [List.getElem?_eq_none h] at hr; exact absurd hr (by simp)
    have := h3 k hk hkn
    simp only [hr, decide_eq_true_eq] at this
    exact this

/-! ## The scan of `Find` -/

theorem bytes_some (l : List Byte) : ByteSlice.bytes (some l) = l := rfl

theorem bytesEqual_some (l : List Byte) (id : ByteSlice) :
    bytesEqual (some l) id = decide (l = id.bytes) := rfl

theorem findVisitor_skips (id : ByteSlice) :
    ∀ (pre : List Decoded) (st : ByteSlice), (∀ x ∈ pre, x.1 ≠ id.bytes) →
      Continues (findVisitor id) st pre ∧ visitAll (findVisitor id) st pre = st := by
  intro pre
  induction pre with
  | nil => intro st _; exact ⟨trivial, rfl⟩
  | cons o os ih =>
    intro st h
    have ho : bytesEqual (some o.1) id = false := by
      rw [bytesEqual_some]
      exact decide_eq_false (h o (List.mem_cons_self _ _))
    have hos := ih st fun x hx => h x (List.mem_cons_of_mem _ hx)
    simp only [Continues, visitAll, findVisitor, ho, Bool.false_eq_true, if_false]
    exact ⟨⟨trivial, trivial, hos.1⟩, hos.2⟩

theorem scan_match (um : List Byte → Unmarshalled) (id : ByteSlice) (pre : List Decoded)
    (o : Decoded) (s r : List Byte) (fuel : Nat)
    (hdec : Decodes um s (pre ++ [o]) r) (hne : ∀ x ∈ pre, x.1 ≠ id.bytes)
    (heq : o.1 = id.bytes) (hfuel : pre.length + 1 ≤ fuel) :
    iterateObjects um (findVisitor id) fuel s none =
      some ⟨none, r, o.2, pre.length + 1, asCalls (pre ++ [o])⟩ := by
  obtain ⟨hc, hv⟩ := findVisitor_skips id pre none hne
  have hm : bytesEqual (some o.1) id = true := by
    rw [bytesEqual_some]
    exact decide_eq_true heq
  have h := (iterate_stop_after um (findVisitor id) pre o s r none fuel hdec hc
    (by simp [hv, findVisitor, hm]) (by simp [hv, findVisitor, hm]) hfuel)
  rw [h, visitAll_append, hv]
  simp [visitAll, findVisitor, hm]

theorem scan_miss (um : List Byte → Unmarshalled) (id : ByteSlice) (objs : List Decoded)
    (s r : List Byte) (fuel : Nat)
    (hdec : Decodes um s objs r) (hne : ∀ x ∈ objs, x.1 ≠ id.bytes)
    (h1 : (um r).err = none) (h2 : (um r).id = none) (hfuel : objs.length + 1 ≤ fuel) :
    iterateObjects um (findVisitor id) fuel s none =
      some ⟨none, (um r).rest, none, objs.length + 1, asCalls objs⟩ := by
  obtain ⟨hc, hv⟩ := findVisitor_skips id objs none hne
  rw [iterate_all um (findVisitor id) objs s r none fuel hdec hc h1 h2 hfuel, hv]

theorem scan_decode_err (um : List Byte → Unmarshalled) (id : ByteSlice) (pre : List Decoded)
    (s r : List Byte) (fuel : Nat) (e : Err)
    (hdec : Decodes um s pre r) (hne : ∀ x ∈ pre, x.1 ≠ id.bytes)
    (he : (um r).err = some e) (hfuel : pre.length + 1 ≤ fuel) :
    iterateObjects um (findVisitor id) fuel s none =
      some ⟨some e, (um r).rest, none, pre.length + 1, asCalls pre⟩ := by
  obtain ⟨hc, hv⟩ := findVisitor_skips id pre none hne
  obtain ⟨k, rfl⟩ : ∃ k, fuel = pre.length + (k + 1) := ⟨fuel - pre.length - 1, by omega⟩
  rw [iterate_through um (findVisitor id) pre s r none (k + 1) hdec hc,
    iterate_decode_err um (findVisitor id) r _ k e he, hv]
  simp [IterResult.after, Nat.add_comm]

/-- C5. Span scan of `Find`: let the read of the candidate record yield the bytes
`span`. If the decoder yields from `span` the objects `pre`, none of which carries
the target, and then an object `o` that does, `Find` returns the payload of `o`
after exactly `pre.length + 1` decoder calls, whatever bytes `r` follow. If the
decoder yields objects none of which carries the target and then signals the end of
the stream, `Find` returns `(nil, nil)`. -/
theorem find_scans_span (um : List Byte → Unmarshalled) (fuel : Nat) (c : completeBlock)
    (w : World) (id : ByteSlice) (rec : Record) (span : List Byte)
    (hrec : c.records[findIndex c id]? = some rec)
    (herr : (readRecordBytes c w rec).err = none)
    (hb : (readRecordBytes c w rec).b = some span) :
    (∀ (pre : List Decoded) (o : Decoded) (r : List Byte),
        Decodes um span (pre ++ [o]) r → (∀ x ∈ pre, x.1 ≠ id.bytes) → o.1 = id.bytes →
        pre.length + 1 ≤ fuel →
        Find um fuel c w id =
          some ⟨o.2, none, (readRecordBytes c w rec).c, (readRecordBytes c w rec).w,
            pre.length + 1⟩) ∧
      (∀ (objs : List Decoded) (r : List Byte),
        Decodes um span objs r → (∀ x ∈ objs, x.1 ≠ id.bytes) →
        (um r).err = none → (um r).id = none → objs.length + 1 ≤ fuel →
        Find um fuel c w id =
          some ⟨none, none, (readRecordBytes c w rec).c, (readRecordBytes c w rec).w,
            objs.length + 1⟩) := by
  constructor
  · intro pre o r hdec hne heq hfuel
    rw [find_of_scan um fuel c w id rec span hrec herr hb,
      scan_match um id pre o span r fuel hdec hne heq hfuel]
    rfl
  · intro objs r hdec hne h1 h2 hfuel
    rw [find_of_scan um fuel c w id rec span hrec herr hb,
      scan_miss um id objs span r fuel hdec hne h1 h2 hfuel]
    rfl

/-- C5 at a span with the objects `(A, a)`, `(B, b)` and a truncated object behind
them, looked up for `B`, and at the span with the two objects alone, looked up for
an identifier between `A` and `B`. -/
theorem find_scans_span_witness :
    (Find sampleUnmarshal 2 (sampleBlock [⟨some [66], 0, 9⟩])
        (sampleWorld [1, 65, 1, 97, 1, 66, 1, 98, 9]) (some [66])).map
        (fun x => (x.b, x.err, x.decodes)) = some (some [98], none, 2) ∧
      (Find sampleUnmarshal 3 (sampleBlock [⟨some [66], 0, 8⟩])
        (sampleWorld [1, 65, 1, 97, 1, 66, 1, 98]) (some [65, 0])).map
        (fun x => (x.b, x.err, x.decodes)) = some (none, none, 3) :=
  ⟨congrArg (Option.map fun x => (x.b, x.err, x.decodes))
      ((find_scans_span sampleUnmarshal 2 (sampleBlock [⟨some [66], 0, 9⟩])
        (sampleWorld [1, 65, 1, 97, 1, 66, 1, 98, 9]) (some [66]) ⟨some [66], 0, 9⟩
        [1, 65, 1, 97, 1, 66, 1, 98, 9] rfl rfl rfl).1 [([65], some [97])] ([66], some [98]) [9]
        ⟨rfl, rfl, rfl, rfl, rfl, rfl, rfl⟩ (by decide) rfl (by decide)),
    congrArg (Option.map fun x => (x.b, x.err, x.decodes))
      ((find_scans_span sampleUnmarshal 3 (sampleBlock [⟨some [66], 0, 8⟩])
        (sampleWorld [1, 65, 1, 97, 1, 66, 1, 98]) (some [65, 0]) ⟨some [66], 0, 8⟩
        [1, 65, 1, 97, 1, 66, 1, 98] rfl rfl rfl).2 [([65], some [97]), ([66], some [98])] []
        ⟨rfl, rfl, rfl, rfl, rfl, rfl, rfl⟩ (by decide) rfl rfl (by decide))⟩

/-- C7. Decode errors are not absence: let the read of the candidate record yield
the bytes `span`. If the decoder yields from `span` the objects `pre`, none of which
carries the target, and then returns the error `e`, `Find` returns a `nil` payload and
exactly `e`, and the failing decoder call is its last one. -/
theorem find_decode_error (um : List Byte → Unmarshalled) (fuel : Nat) (c : completeBlock)
    (w : World) (id : ByteSlice) (rec : Record) (span : List Byte) (pre : List Decoded)
    (r : List Byte) (e : Err)
    (hrec : c.records[findIndex c id]? = some rec)
    (herr : (readRecordBytes c w rec).err = none)
    (hb : (readRecordBytes c w rec).b = some span)
    (hdec : Decodes um span pre r) (hne : ∀ x ∈ pre, x.1 ≠ id.bytes)
    (he : (um r).err = some e) (hfuel : pre.length + 1 ≤ fuel) :
    Find um fuel c w id =
      some ⟨none, some e, (readRecordBytes c w rec).c, (readRecordBytes c w rec).w,
        pre.length + 1⟩ := by
  rw [find_of_scan um fuel c w id rec span hrec herr hb,
    scan_decode_err um id pre span r fuel e hdec hne he hfuel]
  rfl

/-- C7 at a span with the object `(A, a)` and a truncated object behind it, looked up
for an identifier below `A`. -/
theorem find_decode_error_witness :
    (Find sampleUnmarshal 2 (sampleBlock [⟨some [65], 0, 5⟩])
        (sampleWorld [1, 65, 1, 97, 9]) (some [64])).map
        (fun x => (x.b, x.err, x.decodes)) = some (none, some (Err.other 1), 2) :=
  congrArg (Option.map fun x => (x.b, x.err, x.decodes))
    (find_decode_error sampleUnmarshal 2 (sampleBlock [⟨some [65], 0, 5⟩])
      (sampleWorld [1, 65, 1, 97, 9]) (some [64]) ⟨some [65], 0, 5⟩ [1, 65, 1, 97, 9]
      [([65], some [97])] [9] (Err.other 1) rfl rfl rfl ⟨rfl, rfl, rfl, rfl⟩ (by decide) rfl
      (by decide))

theorem findIndex_all_below (c : completeBlock) (id : ByteSlice)
    (h : ∀ r ∈ c.records, bytesCompare r.ID id < 0) : findIndex c id = c.records.length := by
  have hf : ∀ k, k < c.records.length →
      (fun idx => match c.records[idx]? with
        | some r => decide (0 ≤ bytesCompare r.ID id)
        | none => false) k = false := by
    intro k hk
    have := h c.records[k] (List.getElem_mem hk)
    simp only [List.getElem?_eq_getElem hk, decide_eq_false_iff_not, not_le]
    exact this
  refine sortSearch_eq _ _ _ ?_ (le_refl _) hf (fun hlt => absurd hlt (lt_irrefl _))
  intro a b hab hb hfa
  exact absurd ((hf a (by omega)).symm.trans hfa) (by simp)

/-- C4. Out-of-range handling: when every record identifier is strictly below the
target, which includes the empty record sequence, `Find` returns a `nil` payload and
a `nil` error without any decoder call, and leaves the block and the system as they
were, whatever the system holds. -/
theorem find_out_of_range (um : List Byte → Unmarshalled) (fuel : Nat) (c : completeBlock)
    (w : World) (id : ByteSlice) (h : ∀ r ∈ c.records, bytesCompare r.ID id < 0) :
    Find um fuel c w id = some ⟨none, none, c, w, 0⟩ := by
  unfold Find
  simp only [findIndex_all_below c id h, List.getElem?_eq_none (le_refl c.records.length)]

/-- C4 at a block with records for `A` and `B`, looked up for `Z` while no backing
file exists and every system call would fail, and at a block with no record. -/
theorem find_out_of_range_witness :
    Find sampleUnmarshal 0 (sampleBlock [⟨some [65], 0, 4⟩, ⟨some [66], 4, 4⟩])
        ⟨fun _ => none, [], fun _ => some (Err.other 5), []⟩ (some [90]) =
      some ⟨none, none, sampleBlock [⟨some [65], 0, 4⟩, ⟨some [66], 4, 4⟩],
        ⟨fun _ => none, [], fun _ => some (Err.other 5), []⟩, 0⟩ ∧
    Find sampleUnmarshal 0 (sampleBlock []) (sampleWorld []) none =
      some ⟨none, none, sampleBlock [], sampleWorld [], 0⟩ :=
  ⟨find_out_of_range sampleUnmarshal 0 (sampleBlock [⟨some [65], 0, 4⟩, ⟨some [66], 4, 4⟩])
      ⟨fun _ => none, [], fun _ => some (Err.other 5), []⟩ (some [90]) (by decide),
    find_out_of_range sampleUnmarshal 0 (sampleBlock []) (sampleWorld []) none (by decide)⟩

/-- C3. Candidate span selection: over records sorted by identifier the index `Find`
computes is the least index whose record identifier is not below the target (the
number of records when there is none); and when that index is in range and the span
of its record lies inside the file, the bytes `Find` reads are the `Length` bytes of
the file from offset `Start` of that very record, and the result of `Find` is the
result of scanning exactly these bytes. -/
theorem find_candidate_span (um : List Byte → Unmarshalled) (fuel : Nat) (c : completeBlock)
    (w : World) (id : ByteSlice) (data : List Byte)
    (hs : SortedRecords c.records) (hb : Backed c w data) (hnf : NoFault w) :
    findIndex c id ≤ c.records.length ∧
      (∀ k r, k < findIndex c id → c.records[k]? = some r → bytesCompare r.ID id < 0) ∧
      (∀ k r, findIndex c id ≤ k → c.records[k]? = some r → 0 ≤ bytesCompare r.ID id) ∧
      (∀ rec, c.records[findIndex c id]? = some rec → rec.Start + rec.Length ≤ data.length →
        rec.Start < 2 ^ 63 →
        (readRecordBytes c w rec).err = none ∧
        (readRecordBytes c w rec).b = some ((data.drop rec.Start).take rec.Length) ∧
        Find um fuel c w id =
          (iterateObjects um (findVisitor id) fuel ((data.drop rec.Start).take rec.Length)
            none).map fun it =>
              ⟨match it.err with
                | some _ => none
                | none => it.st,
               it.err, (readRecordBytes c w rec).c, (readRecordBytes c w rec).w,
               it.decodes⟩) := by
  obtain ⟨h1, h2, h3⟩ := findIndex_spec c id hs
  refine ⟨h1, h2, h3, ?_⟩
  intro rec hrec hlen hstart
  obtain ⟨r1, r2⟩ := readRecordBytes_ok c w data rec hb hnf hlen hstart
  exact ⟨r1, r2, find_of_scan um fuel c w id rec _ hrec r1 r2⟩

/-- C3 at the records `A` (bytes 0 to 8) and `C` (bytes 8 to 16) over the file of
`(A, a)`, `(B, b)`, `(C, c)`, `(D, d)`, looked up for `B`: the index is 1 and the
bytes read are those of the record `C`. -/
theorem find_candidate_span_witness :
    findIndex (sampleBlock [⟨some [65], 0, 8⟩, ⟨some [67], 8, 8⟩]) (some [66]) = 1 ∧
      (readRecordBytes (sampleBlock [⟨some [65], 0, 8⟩, ⟨some [67], 8, 8⟩])
        (sampleWorld (encodeAll sampleMarshal sampleObjs)) ⟨some [67], 8, 8⟩).b =
        some (((encodeAll sampleMarshal sampleObjs).drop 8).take 8) :=
  ⟨rfl,
    ((find_candidate_span sampleUnmarshal 3 (sampleBlock [⟨some [65], 0, 8⟩, ⟨some [67], 8, 8⟩])
      (sampleWorld (encodeAll sampleMarshal sampleObjs)) (some [66])
      (encodeAll sampleMarshal sampleObjs) (by decide) rfl (fun _ => rfl)).2.2.2
      ⟨some [67], 8, 8⟩ rfl (by decide) (by decide)).2.1⟩

/-! ## Blocks laid out by the writer -/

theorem layoutRecords_length (enc : List Byte → List Byte → List Byte) :
    ∀ (spans : List Span) (off : Nat), (layoutRecords enc off spans).length = spans.length := by
  intro spans
  induction spans with
  | nil => intro off; rfl
  | cons sp sps ih => intro off; simp [layoutRecords, ih]

theorem layoutRecords_ids (enc : List Byte → List Byte → List Byte) :
    ∀ (spans : List Span) (off : Nat),
      (layoutRecords enc off spans).map (fun r => r.ID) = spans.map fun sp => some sp.ID := by
  intro spans
  induction spans with
  | nil => intro off; rfl
  | cons sp sps ih => intro off; simp [layoutRecords, ih]

theorem layoutRecords_get (enc : List Byte → List Byte → List Byte) :
    ∀ (spans : List Span) (off : Nat) (pre : List Byte), pre.length = off →
      ∀ (i : Nat) (rec : Record), (layoutRecords enc off spans)[i]? = some rec →
        ∃ sp, spans[i]? = some sp ∧ rec.ID = some sp.ID ∧
          rec.Start + rec.Length ≤ (pre ++ layoutFile enc spans).length ∧
          ((pre ++ layoutFile enc spans).drop rec.Start).take rec.Length =
            encodeAll enc sp.objs := by
  intro spans
  induction spans with
  | nil => intro off pre _ i rec h; simp [layoutRecords] at h
  | cons sp sps ih =>
    intro off pre hpre i rec h
    cases i with
    | zero =>
      simp only [layoutRecords, List.getElem?_cons_zero, Option.some.injEq] at h
      subst h
      refine ⟨sp, by simp, rfl, ?_, ?_⟩
      · simp only [layoutFile, List.length_append]; omega
      · simp only [layoutFile]
        rw [List.drop_left' hpre, List.take_left' rfl]
    | succ i =>
      simp only [layoutRecords, List.getElem?_cons_succ] at h
      obtain ⟨sp', a, b, c1, d⟩ := ih (off + (encodeAll enc sp.objs).length)
        (pre ++ encodeAll enc sp.objs) (by simp [hpre]) i rec h
      refine ⟨sp', by simpa using a, b, ?_, ?_⟩
      · simpa [layoutFile, List.append_assoc] using c1
      · simpa [layoutFile, List.append_assoc] using d

theorem scan_lookup (um : List Byte → Unmarshalled) (enc : List Byte → List Byte → List Byte)
    (id : ByteSlice) (hend : CleanEnd um) :
    ∀ (objs : List Obj) (fuel : Nat), Inverts um enc objs → objs.length + 1 ≤ fuel →
      ∃ it, iterateObjects um (findVisitor id) fuel (encodeAll enc objs) none = some it ∧
        it.err = none ∧ it.st = lookupObj id.bytes objs := by
  intro objs
  induction objs with
  | nil =>
    intro fuel _ hfuel
    obtain ⟨k, rfl⟩ : ∃ k, fuel = k + 1 := ⟨fuel - 1, by simp at hfuel; omega⟩
    exact ⟨_, iterate_eof um (findVisitor id) [] none k hend.1 hend.2, rfl, rfl⟩
  | cons o os ih =>
    intro fuel hinv hfuel
    obtain ⟨k, rfl⟩ : ∃ k, fuel = k + 1 := ⟨fuel - 1, by simp at hfuel; omega⟩
    have ho := hinv o (List.mem_cons_self _ _) (encodeAll enc os)
    have hos : Inverts um enc os := fun x hx => hinv x (List.mem_cons_of_mem _ hx)
    by_cases heq : o.1 = id.bytes
    · have hd : bytesEqual (some o.1) id = true := by
        rw [bytesEqual_some]; exact decide_eq_true heq
      have hl : lookupObj id.bytes (o :: os) = some o.2 := by
        simp only [lookupObj, if_pos heq]
      rw [hl]
      refine ⟨_, iterate_stop um (findVisitor id) _ none k o.1 ?_ ?_ ?_ ?_, rfl, ?_⟩
      · simp only [encodeAll, ho]
      · simp only [encodeAll, ho]
      · simp only [encodeAll, ho, findVisitor, hd, if_true]
      · simp only [encodeAll, ho, findVisitor, hd, if_true]
      · simp only [encodeAll, ho, findVisitor, hd, if_true]
    · obtain ⟨it, h1, h2, h3⟩ := ih k hos (by simp at hfuel ⊢; omega)
      refine ⟨⟨it.err, it.reader, it.st, it.decodes + 1, (some o.1, some o.2) :: it.calls⟩,
        ?_, h2, ?_⟩
      · simp [iterateObjects, encodeAll, ho, findVisitor, bytesEqual_some, heq, h1]
      · simp [lookupObj, heq, h3]

theorem find_layout (um : List Byte → Unmarshalled) (enc : List Byte → List Byte → List Byte)
    (fuel : Nat) (c : completeBlock) (w : World) (id : ByteSlice) (spans : List Span)
    (hrec : c.records = layoutRecords enc 0 spans) (hb : Backed c w (layoutFile enc spans))
    (hnf : NoFault w) (hsize : (layoutFile enc spans).length < 2 ^ 63)
    (hinv : ∀ sp ∈ spans, Inverts um enc sp.objs) (hend : CleanEnd um)
    (hfuel : ∀ sp ∈ spans, sp.objs.length + 1 ≤ fuel) :
    (Find um fuel c w id).map (fun x => (x.b, x.err)) =
      some (match spans[findIndex c id]? with
        | none => none
        | some sp => lookupObj id.bytes sp.objs, none) := by
  cases hr : c.records[findIndex c id]? with
  | none =>
    have hlen : spans.length ≤ findIndex c id := by
      have := List.getElem?_eq_none_iff.mp hr
      rw [hrec, layoutRecords_length] at this
      exact this
    rw [List.getElem?_eq_none hlen]
    unfold Find
    simp [hr]
  | some rec =>
    have hr' := hr
    rw [hrec] at hr'
    obtain ⟨sp, hsp, _, hle, hslice⟩ := layoutRecords_get enc spans 0 [] rfl _ rec hr'
    simp only [List.nil_append] at hle hslice
    obtain ⟨r1, r2⟩ := readRecordBytes_ok c w _ rec hb hnf hle (by omega)
    rw [hslice] at r2
    have hmem : sp ∈ spans := List.getElem?_mem hsp
    obtain ⟨it, h1, h2, h3⟩ := scan_lookup um enc id hend sp.objs fuel (hinv sp hmem)
      (hfuel sp hmem)
    rw [find_of_scan um fuel c w id rec _ hr r1 r2, h1, hsp]
    simp [h2, h3]

theorem layout_record_of_span (enc : List Byte → List Byte → List Byte) (spans : List Span)
    (off k : Nat) (sp : Span) (h : spans[k]? = some sp) :
    ∃ r, (layoutRecords enc off spans)[k]? = some r ∧ r.ID = some sp.ID := by
  have h1 := congrArg (fun l => l[k]?) (layoutRecords_ids enc spans off)
  simp only [List.getElem?_map, h, Option.map_some'] at h1
  cases hr : (layoutRecords enc off spans)[k]? with
  | none => rw [hr] at h1; simp at h1
  | some r =>
    rw [hr] at h1
    simp only [Option.map_some', Option.some.injEq] at h1
    exact ⟨r, rfl, h1⟩

theorem layout_sorted (enc : List Byte → List Byte → List Byte) (spans : List Span) (off : Nat)
    (hs : spans.Pairwise fun a b => compareBytes a.ID b.ID ≤ 0) :
    SortedRecords (layoutRecords enc off spans) := by
  have h1 : (spans.map fun sp => some sp.ID).Pairwise fun (a b : ByteSlice) =>
      bytesCompare a b ≤ 0 := by
    rw [List.pairwise_map]
    exact hs
  rw [← layoutRecords_ids enc spans off, List.pairwise_map] at h1
  exact h1

theorem findIndex_layout (enc : List Byte → List Byte → List Byte) (c : completeBlock)
    (id : ByteSlice) (spans : List Span) (hrec : c.records = layoutRecords enc 0 spans)
    (hs : spans.Pairwise fun a b => compareBytes a.ID b.ID ≤ 0) :
    (∀ k sp, k < findIndex c id → spans[k]? = some sp → compareBytes sp.ID id.bytes < 0) ∧
      (∀ k sp, findIndex c id ≤ k → spans[k]? = some sp → 0 ≤ compareBytes sp.ID id.bytes) := by
  have hsr : SortedRecords c.records := by rw [hrec]; exact layout_sorted enc spans 0 hs
  obtain ⟨_, h2, h3⟩ := findIndex_spec c id hsr
  constructor
  · intro k sp hk hsp
    obtain ⟨r, hr, hid⟩ := layout_record_of_span enc spans 0 k sp hsp
    rw [← hrec] at hr
    have := h2 k r hk hr
    rw [hid] at this
    exact this
  · intro k sp hk hsp
    obtain ⟨r, hr, hid⟩ := layout_record_of_span enc spans 0 k sp hsp
    rw [← hrec] at hr
    have := h3 k r hk hr
    rw [hid] at this
    exact this

theorem lookupObj_none (t : List Byte) :
    ∀ (objs : List Obj), (∀ x ∈ objs, x.1 ≠ t) → lookupObj t objs = none := by
  intro objs
  induction objs with
  | nil => intro _; rfl
  | cons o os ih =>
    intro h
    simp only [lookupObj, if_neg (h o (List.mem_cons_self _ _))]
    exact ih fun x hx => h x (List.mem_cons_of_mem _ hx)

theorem lookupObj_first (t : List Byte) (o : Obj) (post : List Obj) (ho : o.1 = t) :
    ∀ (pre : List Obj), (∀ x ∈ pre, x.1 ≠ t) → lookupObj t (pre ++ o :: post) = some o.2 := by
  intro pre
  induction pre with
  | nil => intro _; simp only [List.nil_append, lookupObj, if_pos ho]
  | cons p ps ih =>
    intro h
    simp only [List.cons_append, lookupObj, if_neg (h p (List.mem_cons_self _ _))]
    exact ih fun x hx => h x (List.mem_cons_of_mem _ hx)

theorem compareBytes_ne_of_lt (a b : List Byte) (h : compareBytes a b < 0) : a ≠ b := by
  intro hab
  subst hab
  rw [compareBytes_self] at h
  exact absurd h (lt_irrefl _)

theorem lookupObj_at_bound (t : List Byte) :
    ∀ (objs : List Obj) (i : Nat), objs.Pairwise (fun a b => compareBytes a.1 b.1 ≤ 0) →
      (∀ k o, k < i → objs[k]? = some o → compareBytes o.1 t < 0) →
      (∀ k o, i ≤ k → objs[k]? = some o → 0 ≤ compareBytes o.1 t) →
      lookupObj t objs =
        match objs[i]? with
        | none => none
        | some o => lookupObj t [o] := by
  intro objs
  induction objs with
  | nil => intro i _ _ _; rfl
  | cons o os ih =>
    intro i hs hA hB
    cases i with
    | zero =>
      simp only [List.getElem?_cons_zero, lookupObj]
      by_cases heq : o.1 = t
      · simp only [if_pos heq]
      · simp only [if_neg heq]
        apply lookupObj_none
        intro x hx
        have h1 : compareBytes o.1 x.1 ≤ 0 := (List.pairwise_cons.mp hs).1 x hx
        have h2 : 0 ≤ compareBytes o.1 t := hB 0 o (le_refl _) (by simp)
        have h3 := compareBytes_swap o.1 t
        have h4 : compareBytes t o.1 < 0 := by
          rcases lt_or_eq_of_le h2 with h | h
          · omega
          · exact absurd (compareBytes_eq_zero _ _ h.symm) heq
        exact (compareBytes_ne_of_lt _ _ (compareBytes_lt_of_lt_of_le t o.1 x.1 h4 h1)).symm
    | succ j =>
      have hne : o.1 ≠ t := compareBytes_ne_of_lt _ _ (hA 0 o (Nat.succ_pos _) (by simp))
      simp only [List.getElem?_cons_succ, lookupObj, if_neg hne]
      refine ih j (List.pairwise_cons.mp hs).2 ?_ ?_
      · intro k x hk hx
        exact hA (k + 1) x (by omega) (by simpa using hx)
      · intro k x hk hx
        exact hB (k + 1) x (by omega) (by simpa using hx)

theorem layoutFile_dense (enc : List Byte → List Byte → List Byte) :
    ∀ (objs : List Obj), layoutFile enc (denseSpans objs) = encodeAll enc objs := by
  intro objs
  induction objs with
  | nil => rfl
  | cons o os ih =>
    simp only [denseSpans, List.map_cons, layoutFile, encodeAll, List.append_nil]
    rw [← ih]
    rfl

theorem find_dense_lookup (um : List Byte → Unmarshalled)
    (enc : List Byte → List Byte → List Byte) (fuel : Nat) (c : completeBlock) (w : World)
    (id : ByteSlice) (objs : List Obj)
    (hord : objs.Pairwise fun a b => compareBytes a.1 b.1 ≤ 0)
    (hrec : c.records = layoutRecords enc 0 (denseSpans objs))
    (hb : Backed c w (encodeAll enc objs)) (hnf : NoFault w)
    (hsize : (encodeAll enc objs).length < 2 ^ 63)
    (hinv : Inverts um enc objs) (hend : CleanEnd um) (hfuel : 2 ≤ fuel) :
    (Find um fuel c w id).map (fun x => (x.b, x.err)) =
      some (lookupObj id.bytes objs, none) := by
  have hspans : (denseSpans objs).Pairwise fun a b => compareBytes a.ID b.ID ≤ 0 := by
    unfold denseSpans
    rw [List.pairwise_map]
    exact hord
  have hget : ∀ k : Nat, (denseSpans objs)[k]? = (objs[k]?).map fun o => (⟨o.1, [o]⟩ : Span) := by
    intro k
    simp [denseSpans]
  obtain ⟨hA, hB⟩ := findIndex_layout enc c id (denseSpans objs) hrec hspans
  rw [← layoutFile_dense] at hb hsize
  rw [find_layout um enc fuel c w id (denseSpans objs) hrec hb hnf hsize ?_ hend ?_]
  · rw [lookupObj_at_bound id.bytes objs (findIndex c id) hord
      (fun k o hk ho => hA k ⟨o.1, [o]⟩ hk (by rw [hget, ho]; rfl))
      (fun k o hk ho => hB k ⟨o.1, [o]⟩ hk (by rw [hget, ho]; rfl)), hget]
    cases objs[findIndex c id]? <;> rfl
  · intro sp hsp
    simp only [denseSpans, List.mem_map] at hsp
    obtain ⟨o, ho, rfl⟩ := hsp
    intro x hx rest
    simp only [List.mem_singleton] at hx
    subst hx
    exact hinv x ho rest
  · intro sp hsp
    simp only [denseSpans, List.mem_map] at hsp
    obtain ⟨o, _, rfl⟩ := hsp
    simpa using hfuel

theorem lookupObj_unique (objs : List Obj) :
    objs.Pairwise (fun a b => compareBytes a.1 b.1 < 0) →
      ∀ o ∈ objs, lookupObj o.1 objs = some o.2 := by
  induction objs with
  | nil => intro _ o ho; simp at ho
  | cons x xs ih =>
    intro hasc o ho
    rcases List.mem_cons.mp ho with rfl | hmem
    · simp only [lookupObj, if_true]
    · have hne : x.1 ≠ o.1 := compareBytes_ne_of_lt _ _ ((List.pairwise_cons.mp hasc).1 o hmem)
      simp only [lookupObj, if_neg hne]
      exact ih (List.pairwise_cons.mp hasc).2 o hmem

/-- C1. Lookup on a dense index: for objects with strictly ascending identifiers
whose encodings, one after the other, form the backing file, one record per object
with that object's identifier and byte range, a decoder that inverts the encoding
and signals the end on the empty stream, and a system without faults, `Find` returns
the stored payload and no error for every stored identifier, and `(nil, nil)` for
every identifier that is not stored, wherever it falls in the order. -/
theorem find_dense_index (um : List Byte → Unmarshalled)
    (enc : List Byte → List Byte → List Byte) (fuel : Nat) (c : completeBlock) (w : World)
    (objs : List Obj)
    (hasc : objs.Pairwise fun a b => compareBytes a.1 b.1 < 0)
    (hrec : c.records = layoutRecords enc 0 (denseSpans objs))
    (hb : Backed c w (encodeAll enc objs)) (hnf : NoFault w)
    (hsize : (encodeAll enc objs).length < 2 ^ 63)
    (hinv : Inverts um enc objs) (hend : CleanEnd um) (hfuel : 2 ≤ fuel) :
    (∀ o ∈ objs, ∀ id : ByteSlice, id.bytes = o.1 →
        (Find um fuel c w id).map (fun x => (x.b, x.err)) = some (some o.2, none)) ∧
      (∀ id : ByteSlice, (∀ o ∈ objs, o.1 ≠ id.bytes) →
        (Find um fuel c w id).map (fun x => (x.b, x.err)) = some (none, none)) := by
  have hord : objs.Pairwise fun a b => compareBytes a.1 b.1 ≤ 0 :=
    hasc.imp fun h => le_of_lt h
  constructor
  · intro o ho id hid
    rw [find_dense_lookup um enc fuel c w id objs hord hrec hb hnf hsize hinv hend hfuel, hid,
      lookupObj_unique objs hasc o ho]
  · intro id hne
    rw [find_dense_lookup um enc fuel c w id objs hord hrec hb hnf hsize hinv hend hfuel,
      lookupObj_none id.bytes objs hne]

/-- C1 at the block `[A, B, C, D]` with payloads `[a, b, c, d]`: `Find(B)` is `b`,
`Find(Z)` is absent. -/
theorem find_dense_index_witness :
    (Find sampleUnmarshal 2 (sampleBlock (layoutRecords sampleMarshal 0 (denseSpans sampleObjs)))
        (sampleWorld (encodeAll sampleMarshal sampleObjs)) (some [66])).map
        (fun x => (x.b, x.err)) = some (some [98], none) ∧
      (Find sampleUnmarshal 2 (sampleBlock (layoutRecords sampleMarshal 0 (denseSpans sampleObjs)))
        (sampleWorld (encodeAll sampleMarshal sampleObjs)) (some [90])).map
        (fun x => (x.b, x.err)) = some (none, none) :=
  ⟨(find_dense_index sampleUnmarshal sampleMarshal 2
      (sampleBlock (layoutRecords sampleMarshal 0 (denseSpans sampleObjs)))
      (sampleWorld (encodeAll sampleMarshal sampleObjs)) sampleObjs (by decide) rfl rfl
      (fun _ => rfl) (by decide) sample_inverts sample_cleanEnd (by decide)).1
      ([66], [98]) (by decide) (some [66]) rfl,
    (find_dense_index sampleUnmarshal sampleMarshal 2
      (sampleBlock (layoutRecords sampleMarshal 0 (denseSpans sampleObjs)))
      (sampleWorld (encodeAll sampleMarshal sampleObjs)) sampleObjs (by decide) rfl rfl
      (fun _ => rfl) (by decide) sample_inverts sample_cleanEnd (by decide)).2
      (some [90]) (by decide)⟩

/-- C2 fails on a sparse index. In the sample layout the records `A` and `C` are
sorted and partition the file, the object `(B, b)` is stored in the span of `A` and
`B` lies strictly between `A` and `C`; yet `Find(B)` returns `(nil, nil)` and not the
payload `b`. -/
theorem find_sparse_counterexample :
    SortedRecords (layoutRecords sampleMarshal 0 sparseSpans) ∧
      sparseSpans[0]? = some ⟨[65], [([65], [97]), ([66], [98])]⟩ ∧
      compareBytes [65] [66] < 0 ∧ compareBytes [66] [67] < 0 ∧
      lookupObj [66] (layoutObjs sparseSpans) = some [98] ∧
      (Find sampleUnmarshal 9 (sampleBlock (layoutRecords sampleMarshal 0 sparseSpans))
        (sampleWorld (layoutFile sampleMarshal sparseSpans)) (some [66])).map
        (fun x => (x.b, x.err)) = some (none, none) :=
  ⟨by decide, rfl, by decide, by decide, rfl, rfl⟩

/-- C2 as amended. On a block laid out in spans with sorted record identifiers, each
object's identifier not below the identifier of its span's record, a target that
lies strictly between the identifiers of two consecutive records is looked up in the
later of the two spans only: the index `Find` computes is that of the later record
and `Find` returns `(nil, nil)`, whether or not the earlier span stores the target. -/
theorem find_between_span_starts (um : List Byte → Unmarshalled)
    (enc : List Byte → List Byte → List Byte) (fuel : Nat) (c : completeBlock) (w : World)
    (id : ByteSlice) (spans : List Span) (i : Nat) (lo hi : Span)
    (hrec : c.records = layoutRecords enc 0 spans) (hb : Backed c w (layoutFile enc spans))
    (hnf : NoFault w) (hsize : (layoutFile enc spans).length < 2 ^ 63)
    (hinv : ∀ sp ∈ spans, Inverts um enc sp.objs) (hend : CleanEnd um)
    (hfuel : ∀ sp ∈ spans, sp.objs.length + 1 ≤ fuel)
    (hs : spans.Pairwise fun a b => compareBytes a.ID b.ID ≤ 0)
    (hlow : ∀ sp ∈ spans, ∀ o ∈ sp.objs, compareBytes sp.ID o.1 ≤ 0)
    (hlo : spans[i]? = some lo) (hhi : spans[i + 1]? = some hi)
    (h1 : compareBytes lo.ID id.bytes < 0) (h2 : compareBytes id.bytes hi.ID < 0) :
    findIndex c id = i + 1 ∧
      (Find um fuel c w id).map (fun x => (x.b, x.err)) = some (none, none) := by
  obtain ⟨hA, hB⟩ := findIndex_layout enc c id spans hrec hs
  have hidx : findIndex c id = i + 1 := by
    rcases Nat.lt_trichotomy (findIndex c id) (i + 1) with h | h | h
    · have := hB i lo (by omega) hlo
      omega
    · exact h
    · have := hA (i + 1) hi h hhi
      have hsw := compareBytes_swap hi.ID id.bytes
      omega
  refine ⟨hidx, ?_⟩
  rw [find_layout um enc fuel c w id spans hrec hb hnf hsize hinv hend hfuel, hidx, hhi]
  have hnone : lookupObj id.bytes hi.objs = none := by
    apply lookupObj_none
    intro x hx
    have h3 := hlow hi (List.getElem?_mem hhi) x hx
    exact (compareBytes_ne_of_lt _ _ (compareBytes_lt_of_lt_of_le _ _ _ h2 h3)).symm
  simp only [hnone]

/-- C2 as amended at the sample sparse layout, looked up for `B`. -/
theorem find_between_span_starts_witness :
    findIndex (sampleBlock (layoutRecords sampleMarshal 0 sparseSpans)) (some [66]) = 0 + 1 ∧
      (Find sampleUnmarshal 3 (sampleBlock (layoutRecords sampleMarshal 0 sparseSpans))
        (sampleWorld (layoutFile sampleMarshal sparseSpans)) (some [66])).map
        (fun x => (x.b, x.err)) = some (none, none) :=
  find_between_span_starts sampleUnmarshal sampleMarshal 3
    (sampleBlock (layoutRecords sampleMarshal 0 sparseSpans))
    (sampleWorld (layoutFile sampleMarshal sparseSpans)) (some [66]) sparseSpans 0
    ⟨[65], [([65], [97]), ([66], [98])]⟩ ⟨[67], [([67], [99]), ([68], [100])]⟩
    rfl rfl (fun _ => rfl) (by decide)
    (by
      intro sp hsp
      simp only [sparseSpans, List.mem_cons, List.mem_singleton, List.not_mem_nil,
        or_false] at hsp
      rcases hsp with rfl | rfl <;> intro o ho rest <;>
        simp only [List.mem_cons, List.mem_singleton, List.not_mem_nil, or_false] at ho <;>
        rcases ho with rfl | rfl <;> rfl)
    sample_cleanEnd (by decide) (by decide) (by decide) rfl rfl (by decide) (by decide)

/-- C6 fails on a sparse index. In both sample layouts with a repeated identifier
the objects are in ascending order with equal neighbours, the records are sorted and
the first object in file order that carries `B` has the payload `b`. Where both
objects `B` lie inside the span of record `A`, `Find(B)` returns `(nil, nil)`; where
the second one starts the span of record `B`, `Find(B)` returns its payload `x`. -/
theorem find_first_match_counterexample :
    ((layoutObjs repeatInnerSpans).Pairwise (fun a b => compareBytes a.1 b.1 ≤ 0) ∧
      SortedRecords (layoutRecords sampleMarshal 0 repeatInnerSpans) ∧
      lookupObj [66] (layoutObjs repeatInnerSpans) = some [98] ∧
      (Find sampleUnmarshal 9 (sampleBlock (layoutRecords sampleMarshal 0 repeatInnerSpans))
        (sampleWorld (layoutFile sampleMarshal repeatInnerSpans)) (some [66])).map
        (fun x => (x.b, x.err)) = some (none, none)) ∧
    ((layoutObjs repeatSpans).Pairwise (fun a b => compareBytes a.1 b.1 ≤ 0) ∧
      SortedRecords (layoutRecords sampleMarshal 0 repeatSpans) ∧
      lookupObj [66] (layoutObjs repeatSpans) = some [98] ∧
      (Find sampleUnmarshal 9 (sampleBlock (layoutRecords sampleMarshal 0 repeatSpans))
        (sampleWorld (layoutFile sampleMarshal repeatSpans)) (some [66])).map
        (fun x => (x.b, x.err)) = some (some [120], none)) :=
  ⟨⟨by decide, by decide, rfl, rfl⟩, ⟨by decide, by decide, rfl, rfl⟩⟩

/-- C6 as amended. On a dense index, one record per object, over objects stored in
ascending identifier order with equal neighbours allowed, `Find` returns the payload
of the first object in file order that carries the target. -/
theorem find_first_match_dense (um : List Byte → Unmarshalled)
    (enc : List Byte → List Byte → List Byte) (fuel : Nat) (c : completeBlock) (w : World)
    (id : ByteSlice) (pre post : List Obj) (o : Obj)
    (hord : (pre ++ o :: post).Pairwise fun a b => compareBytes a.1 b.1 ≤ 0)
    (hrec : c.records = layoutRecords enc 0 (denseSpans (pre ++ o :: post)))
    (hb : Backed c w (encodeAll enc (pre ++ o :: post))) (hnf : NoFault w)
    (hsize : (encodeAll enc (pre ++ o :: post)).length < 2 ^ 63)
    (hinv : Inverts um enc (pre ++ o :: post)) (hend : CleanEnd um) (hfuel : 2 ≤ fuel)
    (hfirst : ∀ x ∈ pre, x.1 ≠ id.bytes) (ho : o.1 = id.bytes) :
    (Find um fuel c w id).map (fun x => (x.b, x.err)) = some (some o.2, none) := by
  rw [find_dense_lookup um enc fuel c w id _ hord hrec hb hnf hsize hinv hend hfuel,
    lookupObj_first id.bytes o post ho pre hfirst]

/-- C6 as amended at the objects `(A, a)`, `(B, b)`, `(B, x)`, `(C, c)` under a dense
index: `Find(B)` is `b`. -/
theorem find_first_match_dense_witness :
    (Find sampleUnmarshal 2
        (sampleBlock (layoutRecords sampleMarshal 0 (denseSpans (layoutObjs repeatSpans))))
        (sampleWorld (encodeAll sampleMarshal (layoutObjs repeatSpans))) (some [66])).map
        (fun x => (x.b, x.err)) = some (some [98], none) :=
  find_first_match_dense sampleUnmarshal sampleMarshal 2
    (sampleBlock (layoutRecords sampleMarshal 0 (denseSpans (layoutObjs repeatSpans))))
    (sampleWorld (encodeAll sampleMarshal (layoutObjs repeatSpans))) (some [66])
    [([65], [97])] [([66], [120]), ([67], [99])] ([66], [98])
    (by decide) rfl rfl (fun _ => rfl) (by decide)
    (by
      intro x hx rest
      simp only [List.cons_append, List.nil_append, List.mem_cons, List.mem_singleton,
        List.not_mem_nil, or_false] at hx
      rcases hx with rfl | rfl | rfl | rfl <;> rfl)
    sample_cleanEnd (by decide) (by decide) rfl

/-! ## Effects on the system: `Clear`, `Iterator`, `Find` -/

theorem osClose_effect (w : World) (f : Nat) :
    (osClose w f).2.trace = w.trace ++ [Event.close f] ∧ (osClose w f).2.disk = w.disk ∧
      (osClose w f).2.fault = w.fault := by
  unfold osClose
  dsimp only
  repeat' split
  all_goals exact ⟨rfl, rfl, rfl⟩

theorem osRemove_trace (w : World) (name : String) :
    (osRemove w name).2.trace = w.trace ++ [Event.remove name] ∧
      (osRemove w name).2.handles = w.handles := by
  unfold osRemove
  dsimp only
  repeat' split
  all_goals exact ⟨rfl, rfl⟩

theorem osRemove_ok (w : World) (name : String) (h : (osRemove w name).1 = none) :
    (osRemove w name).2.disk name = none := by
  unfold osRemove at h ⊢
  cases hf : w.fault w.trace.length with
  | some e => simp [hf] at h
  | none =>
    cases hd : w.disk name with
    | none => simp [hf, hd] at h
    | some d => simp [hf, hd, World.log]

theorem closeHandle_get : ∀ (hs : List Handle) (f g : Nat),
    (closeHandle hs f)[g]? =
      if g = f then (hs[g]?).map fun h => { h with closed := true } else hs[g]? := by
  intro hs
  induction hs with
  | nil => intro f g; simp [closeHandle]
  | cons h hs ih =>
    intro f g
    cases f with
    | zero =>
      cases g with
      | zero => simp [closeHandle]
      | succ g => simp [closeHandle]
    | succ f =>
      cases g with
      | zero => simp [closeHandle]
      | succ g => simp [closeHandle, ih]

theorem osClose_ok (w : World) (f : Nat) (h : (osClose w f).1 = none) :
    ∀ x, (osClose w f).2.handles[f]? = some x → x.closed = true := by
  unfold osClose at h ⊢
  cases hh : w.handles[f]? with
  | none => simp [hh] at h
  | some y =>
    cases hc : y.closed with
    | true => simp [hh, hc] at h
    | false =>
      cases hf : w.fault w.trace.length with
      | some e => simp [hh, hc, hf] at h
      | none =>
        intro x hx
        simp only [hh, hc, hf, Bool.false_eq_true, if_false, World.log] at hx
        rw [closeHandle_get, if_pos rfl, hh] at hx
        simp only [Option.map_some', Option.some.injEq] at hx
        rw [← hx]

/-- C13. `Clear` closes before it removes. With a handle in the block: if `Close`
fails, `Clear` returns that error, the files on disk are untouched and `Close` is the
only call made; if `Close` succeeds, the handle is closed in the state from which
`Remove` runs, the calls made are `Close` and then `Remove`, and `Clear` returns the
result of `Remove`. Without a handle the only call is `Remove` and `Clear` returns
its result. The block itself is never changed. -/
theorem clear_closes_before_remove (c : completeBlock) (w : World) :
    (∀ f, c.readFile = some f →
      (∀ e, (osClose w f).1 = some e →
        (Clear c w).1 = some e ∧ (Clear c w).2.2.disk = w.disk ∧
          (Clear c w).2.2.trace = w.trace ++ [Event.close f]) ∧
      ((osClose w f).1 = none →
        (Clear c w).1 = (osRemove (osClose w f).2 (fullFilename c)).1 ∧
          (Clear c w).2.2 = (osRemove (osClose w f).2 (fullFilename c)).2 ∧
          (∀ x, (osClose w f).2.handles[f]? = some x → x.closed = true) ∧
          (Clear c w).2.2.trace =
            w.trace ++ [Event.close f, Event.remove (fullFilename c)])) ∧
      (c.readFile = none →
        (Clear c w).1 = (osRemove w (fullFilename c)).1 ∧
          (Clear c w).2.2 = (osRemove w (fullFilename c)).2 ∧
          (Clear c w).2.2.trace = w.trace ++ [Event.remove (fullFilename c)]) ∧
      (Clear c w).2.1 = c := by
  refine ⟨?_, ?_, ?_⟩
  · intro f hf
    constructor
    · intro e he
      have h1 := osClose_effect w f
      simp only [Clear, hf]
      rcases hc : osClose w f with ⟨res, w1⟩
      rw [hc] at he h1
      simp only at he h1
      subst he
      exact ⟨rfl, h1.2.1, h1.1⟩
    · intro hok
      have h2 := osClose_ok w f hok
      have h1 := osClose_effect w f
      simp only [Clear, hf]
      rcases hc : osClose w f with ⟨res, w1⟩
      rw [hc] at hok h1 h2
      simp only at hok h1 h2
      subst hok
      refine ⟨rfl, rfl, h2, ?_⟩
      simp only [(osRemove_trace w1 (fullFilename c)).1, h1.1, List.append_assoc,
        List.singleton_append]
  · intro hnone
    refine ⟨by simp only [Clear, hnone], by simp only [Clear, hnone], ?_⟩
    simp only [Clear, hnone]
    exact (osRemove_trace w (fullFilename c)).1
  · cases hf : c.readFile with
    | none => simp only [Clear, hf]
    | some f =>
      simp only [Clear, hf]
      rcases osClose w f with ⟨_ | e, w1⟩ <;> rfl

/-- C13 at a block with an open handle whose `Close` fails, at the same block when
`Close` succeeds, and at a block without a handle. -/
theorem clear_closes_before_remove_witness :
    ((Clear (sampleHeldBlock []) (sampleHeldWorld [1, 65, 1, 97] fun _ => some (Err.other 3))).1 =
        some (Err.other 3) ∧
      (Clear (sampleHeldBlock [])
        (sampleHeldWorld [1, 65, 1, 97] fun _ => some (Err.other 3))).2.2.trace =
        [] ++ [Event.close 0]) ∧
    (Clear (sampleHeldBlock []) (sampleHeldWorld [1, 65, 1, 97] fun _ => none)).2.2.trace =
      [] ++ [Event.close 0, Event.remove (fullFilename (sampleHeldBlock []))] ∧
    (Clear (sampleBlock []) (sampleWorld [1, 65, 1, 97])).2.2.trace =
      [] ++ [Event.remove (fullFilename (sampleBlock []))] :=
  ⟨⟨(((clear_closes_before_remove (sampleHeldBlock [])
        (sampleHeldWorld [1, 65, 1, 97] fun _ => some (Err.other 3))).1 0 rfl).1
        (Err.other 3) rfl).1,
      (((clear_closes_before_remove (sampleHeldBlock [])
        (sampleHeldWorld [1, 65, 1, 97] fun _ => some (Err.other 3))).1 0 rfl).1
        (Err.other 3) rfl).2.2⟩,
    (((clear_closes_before_remove (sampleHeldBlock [])
      (sampleHeldWorld [1, 65, 1, 97] fun _ => none)).1 0 rfl).2 rfl).2.2.2,
    ((clear_closes_before_remove (sampleBlock []) (sampleWorld [1, 65, 1, 97])).2.1 rfl).2.2⟩

theorem osOpenFile_err (w : World) (name : String) (e : Err)
    (h : (osOpenFile w name).1 = Except.error e) :
    osOpenFile w name = (Except.error e, w.log (Event.openFile name none)) := by
  unfold osOpenFile at h ⊢
  cases hf : w.fault w.trace.length with
  | some e1 =>
    simp only [hf] at h ⊢
    rw [Except.error.injEq] at h
    rw [h]
  | none =>
    cases hd : w.disk name with
    | none =>
      simp only [hf, hd] at h ⊢
      rw [Except.error.injEq] at h
      rw [h]
    | some d => simp [hf, hd] at h

theorem osOpenFile_new (w : World) (name : String) (data : List Byte)
    (hf : w.fault w.trace.length = none) (hd : w.disk name = some data) :
    osOpenFile w name =
      (Except.ok w.handles.length,
        ⟨w.disk, w.handles ++ [⟨name, data, false⟩], w.fault,
          w.trace ++ [Event.openFile name (some w.handles.length)]⟩) := by
  simp [osOpenFile, hf, hd, World.log]

theorem closeHandle_last : ∀ (hs : List Handle) (h : Handle),
    closeHandle (hs ++ [h]) hs.length = hs ++ [{ h with closed := true }] := by
  intro hs
  induction hs with
  | nil => intro h; rfl
  | cons x xs ih => intro h; simp [closeHandle, ih]

theorem osReadAt_world (w : World) (fd len : Nat) (off : Int) :
    (osReadAt w fd len off).2 = w.log (Event.readAt fd off len) := by
  unfold osReadAt
  dsimp only
  repeat' split
  all_goals rfl

theorem readSpan_effect (c : completeBlock) (w : World) (fd : Nat) (r : Record) :
    (readSpan c w fd r).c = c ∧
      (readSpan c w fd r).w = w.log (Event.readAt fd (int64 r.Start) r.Length) := by
  have h := osReadAt_world w fd r.Length (int64 r.Start)
  unfold readSpan
  rcases hr : osReadAt w fd r.Length (int64 r.Start) with ⟨res, w1⟩
  rw [hr] at h
  simp only at h
  subst h
  cases res <;> exact ⟨rfl, rfl⟩

/-- C15. `Iterator` works through a handle of its own. When the open fails,
`Iterator` returns that error and touches neither the block nor any handle. When the
open succeeds, the loop runs over the bytes of the backing file from the first one
on; whatever the loop returns (nil, a decoder error or a visitor error), `Iterator`
returns it, the block with its stored handle and all its other fields is unchanged,
every handle that existed before is unchanged, and the one new handle is closed. -/
theorem iterator_own_handle {σ : Type} (um : List Byte → Unmarshalled) (fn : IterFunc σ)
    (fuel : Nat) (c : completeBlock) (w : World) (st : σ) :
    (∀ e, (osOpenFile w (fullFilename c)).1 = Except.error e →
        Iterator um fn fuel c w st =
          some ⟨some e, st, c, w.log (Event.openFile (fullFilename c) none), 0, []⟩) ∧
      (∀ data it, w.fault w.trace.length = none → w.disk (fullFilename c) = some data →
        iterateObjects um fn fuel data st = some it →
        Iterator um fn fuel c w st =
          some ⟨it.err, it.st, c,
            ⟨w.disk, w.handles ++ [⟨fullFilename c, data, true⟩], w.fault,
              w.trace ++ [Event.openFile (fullFilename c) (some w.handles.length),
                Event.read w.handles.length, Event.close w.handles.length]⟩,
            it.decodes, it.calls⟩) := by
  constructor
  · intro e he
    unfold Iterator
    rw [osOpenFile_err w _ e he]
  · intro data it hf hd hit
    unfold Iterator
    rw [osOpenFile_new w _ data hf hd]
    have hs : osStream ⟨w.disk, w.handles ++ [⟨fullFilename c, data, false⟩], w.fault,
        w.trace ++ [Event.openFile (fullFilename c) (some w.handles.length)]⟩
        w.handles.length = data := by
      simp [osStream]
    simp only [hs, hit]
    have hc := closeHandle_last w.handles ⟨fullFilename c, data, false⟩
    cases hfl : w.fault (w.trace.length + 1 + 1) <;>
      simp [osClose, World.log, hfl, hc]

/-- C15 at a block that holds the open handle 0: after a full scan the block still
holds handle 0, handle 0 is still open, the new handle 1 is closed, and the calls
made are open, read and close on handle 1. -/
theorem iterator_own_handle_witness :
    (Iterator sampleUnmarshal (fun (n : Nat) _ _ => ⟨true, none, n + 1⟩) 5
        (sampleHeldBlock []) (sampleHeldWorld (encodeAll sampleMarshal sampleObjs) fun _ => none)
        0).map (fun x => (x.err, x.c.readFile, x.w.handles.map (fun h => h.closed), x.w.trace)) =
      some (none, some 0, [false, true],
        [Event.openFile (fullFilename (sampleHeldBlock [])) (some 1), Event.read 1,
          Event.close 1]) :=
  congrArg (Option.map fun x => (x.err, x.c.readFile, x.w.handles.map (fun h => h.closed),
      x.w.trace))
    ((iterator_own_handle sampleUnmarshal (fun (n : Nat) _ _ => ⟨true, none, n + 1⟩) 5
      (sampleHeldBlock []) (sampleHeldWorld (encodeAll sampleMarshal sampleObjs) fun _ => none)
      0).2 (encodeAll sampleMarshal sampleObjs)
      ⟨none, [], 4, 5, [(some [65], some [97]), (some [66], some [98]), (some [67], some [99]),
        (some [68], some [100])]⟩ rfl rfl rfl)

theorem find_effect (um : List Byte → Unmarshalled) (fuel : Nat) (c : completeBlock)
    (w : World) (id : ByteSlice) (rec : Record) (r : FindResult)
    (hrec : c.records[findIndex c id]? = some rec) (h : Find um fuel c w id = some r) :
    r.c = (readRecordBytes c w rec).c ∧ r.w = (readRecordBytes c w rec).w := by
  unfold Find at h
  simp only [hrec] at h
  cases he : (readRecordBytes c w rec).err with
  | some e =>
    simp only [he, Option.some.injEq] at h
    rw [← h]
    exact ⟨rfl, rfl⟩
  | none =>
    simp only [he] at h
    cases hit : iterateObjects um (findVisitor id) fuel (readRecordBytes c w rec).b.bytes
        none with
    | none => simp [hit] at h
    | some it =>
      simp only [hit] at h
      cases hie : it.err <;> simp only [hie, Option.some.injEq] at h <;> rw [← h] <;>
        exact ⟨rfl, rfl⟩

theorem find_open_failed (um : List Byte → Unmarshalled) (fuel : Nat) (c : completeBlock)
    (w : World) (id : ByteSlice) (rec : Record) (e : Err)
    (hrec : c.records[findIndex c id]? = some rec) (hnone : c.readFile = none)
    (he : (osOpenFile w (fullFilename c)).1 = Except.error e) :
    Find um fuel c w id =
      some ⟨none, some e, c, w.log (Event.openFile (fullFilename c) none), 0⟩ := by
  unfold Find
  simp only [hrec, readRecordBytes, hnone, osOpenFile_err w _ e he]

theorem readSpan_err (c : completeBlock) (w : World) (f : Nat) (r : Record) (e : Err)
    (h : (osReadAt w f r.Length (int64 r.Start)).1 = Except.error e) :
    readSpan c w f r = ⟨none, some e, c, w.log (Event.readAt f (int64 r.Start) r.Length)⟩ := by
  have hw := osReadAt_world w f r.Length (int64 r.Start)
  unfold readSpan
  rcases hr : osReadAt w f r.Length (int64 r.Start) with ⟨res, w1⟩
  rw [hr] at h hw
  simp only at h hw
  subst h hw
  rfl

theorem readSpan_bytes (c : completeBlock) (w : World) (f : Nat) (r : Record) (b : List Byte)
    (h : (osReadAt w f r.Length (int64 r.Start)).1 = Except.ok b) :
    readSpan c w f r = ⟨some b, none, c, w.log (Event.readAt f (int64 r.Start) r.Length)⟩ := by
  have hw := osReadAt_world w f r.Length (int64 r.Start)
  unfold readSpan
  rcases hr : osReadAt w f r.Length (int64 r.Start) with ⟨res, w1⟩
  rw [hr] at h hw
  simp only at h hw
  subst h hw
  rfl

theorem find_through_handle (um : List Byte → Unmarshalled) (fuel : Nat) (c : completeBlock)
    (w : World) (id : ByteSlice) (rec : Record) (f : Nat)
    (hrec : c.records[findIndex c id]? = some rec) (hf : c.readFile = some f) :
    (∀ e, (osReadAt w f rec.Length (int64 rec.Start)).1 = Except.error e →
        Find um fuel c w id =
          some ⟨none, some e, c, w.log (Event.readAt f (int64 rec.Start) rec.Length), 0⟩) ∧
      (∀ b it, (osReadAt w f rec.Length (int64 rec.Start)).1 = Except.ok b →
        iterateObjects um (findVisitor id) fuel b none = some it →
        Find um fuel c w id =
          some (scanAnswer it c (w.log (Event.readAt f (int64 rec.Start) rec.Length)))) := by
  constructor
  · intro e he
    unfold Find
    simp only [hrec, readRecordBytes, hf, readSpan_err c w f rec e he]
  · intro b it hb hit
    unfold Find
    simp only [hrec, readRecordBytes, hf, readSpan_bytes c w f rec b hb, ByteSlice.bytes, hit]
    cases he : it.err <;> simp [scanAnswer, he]

theorem find_first_open (um : List Byte → Unmarshalled) (fuel : Nat) (c : completeBlock)
    (w : World) (id : ByteSlice) (rec : Record) (data : List Byte)
    (hrec : c.records[findIndex c id]? = some rec) (hnone : c.readFile = none)
    (hf : w.fault w.trace.length = none) (hd : w.disk (fullFilename c) = some data) :
    (∀ e, (osReadAt (w.opened (fullFilename c) data) w.handles.length rec.Length
          (int64 rec.Start)).1 = Except.error e →
        Find um fuel c w id =
          some ⟨none, some e, withHandle c w.handles.length,
            (w.opened (fullFilename c) data).log
              (Event.readAt w.handles.length (int64 rec.Start) rec.Length), 0⟩) ∧
      (∀ b it, (osReadAt (w.opened (fullFilename c) data) w.handles.length rec.Length
          (int64 rec.Start)).1 = Except.ok b →
        iterateObjects um (findVisitor id) fuel b none = some it →
        Find um fuel c w id =
          some (scanAnswer it (withHandle c w.handles.length)
            ((w.opened (fullFilename c) data).log
              (Event.readAt w.handles.length (int64 rec.Start) rec.Length)))) := by
  have hopen : osOpenFile w (fullFilename c) =
      (Except.ok w.handles.length, w.opened (fullFilename c) data) :=
    osOpenFile_new w _ data hf hd
  constructor
  · intro e he
    unfold Find
    simp only [hrec, readRecordBytes, hnone, hopen]
    rw [readSpan_err _ _ _ rec e he]
    rfl
  · intro b it hb hit
    unfold Find
    simp only [hrec, readRecordBytes, hnone, hopen]
    rw [readSpan_bytes _ _ _ rec b hb]
    simp only [ByteSlice.bytes, hit]
    cases he : it.err <;> simp [scanAnswer, he, withHandle]

/-- C14. Lazy handle retention, with the exact result of `Find` in every case. A
`Find` that does not reach the span read returns `(nil, nil)` and leaves block and
system as they are. With no handle and a failing open, `Find` returns the error of
the open and the block still has no handle. With no handle and a successful open,
`Find` returns the block with the new handle stored and no other field changed; the
system has that one new handle, open, and the calls made are one open and one
`ReadAt` on it. A `Find` on a block with a stored handle, and so every later `Find`
on the block and system the first one left behind, returns the same block and a
system with the same handles and one more `ReadAt` on the stored handle: no open and
no close. The payload and error are those of the scan of the bytes read. -/
theorem find_retains_handle (um : List Byte → Unmarshalled) (fuel : Nat) (c : completeBlock)
    (w : World) (id : ByteSlice) :
    (c.records[findIndex c id]? = none → Find um fuel c w id = some ⟨none, none, c, w, 0⟩) ∧
      (∀ rec, c.records[findIndex c id]? = some rec →
        (∀ f, c.readFile = some f →
          (∀ e, (osReadAt w f rec.Length (int64 rec.Start)).1 = Except.error e →
            Find um fuel c w id =
              some ⟨none, some e, c, w.log (Event.readAt f (int64 rec.Start) rec.Length),
                0⟩) ∧
          (∀ b it, (osReadAt w f rec.Length (int64 rec.Start)).1 = Except.ok b →
            iterateObjects um (findVisitor id) fuel b none = some it →
            Find um fuel c w id =
              some (scanAnswer it c
                (w.log (Event.readAt f (int64 rec.Start) rec.Length))))) ∧
        (c.readFile = none → ∀ e, (osOpenFile w (fullFilename c)).1 = Except.error e →
          Find um fuel c w id =
            some ⟨none, some e, c, w.log (Event.openFile (fullFilename c) none), 0⟩) ∧
        (c.readFile = none → ∀ data, w.fault w.trace.length = none →
          w.disk (fullFilename c) = some data →
          (∀ e, (osReadAt (w.opened (fullFilename c) data) w.handles.length rec.Length
              (int64 rec.Start)).1 = Except.error e →
            Find um fuel c w id =
              some ⟨none, some e, withHandle c w.handles.length,
                (w.opened (fullFilename c) data).log
                  (Event.readAt w.handles.length (int64 rec.Start) rec.Length), 0⟩) ∧
          (∀ b it, (osReadAt (w.opened (fullFilename c) data) w.handles.length rec.Length
              (int64 rec.Start)).1 = Except.ok b →
            iterateObjects um (findVisitor id) fuel b none = some it →
            Find um fuel c w id =
              some (scanAnswer it (withHandle c w.handles.length)
                ((w.opened (fullFilename c) data).log
                  (Event.readAt w.handles.length (int64 rec.Start) rec.Length)))) ∧
          (∀ (id2 : ByteSlice) (fuel2 : Nat) (rec2 : Record) (b2 : List Byte)
              (it2 : IterResult ByteSlice),
            c.records[findIndex c id2]? = some rec2 →
            (osReadAt ((w.opened (fullFilename c) data).log
                (Event.readAt w.handles.length (int64 rec.Start) rec.Length))
              w.handles.length rec2.Length (int64 rec2.Start)).1 = Except.ok b2 →
            iterateObjects um (findVisitor id2) fuel2 b2 none = some it2 →
            Find um fuel2 (withHandle c w.handles.length)
                ((w.opened (fullFilename c) data).log
                  (Event.readAt w.handles.length (int64 rec.Start) rec.Length)) id2 =
              some (scanAnswer it2 (withHandle c w.handles.length)
                (((w.opened (fullFilename c) data).log
                  (Event.readAt w.handles.length (int64 rec.Start) rec.Length)).log
                  (Event.readAt w.handles.length (int64 rec2.Start) rec2.Length)))))) := by
  constructor
  · intro hnone
    unfold Find
    simp only [hnone]
  · intro rec hrec
    refine ⟨fun f hf => find_through_handle um fuel c w id rec f hrec hf, ?_, ?_⟩
    · intro hnone e he
      exact find_open_failed um fuel c w id rec e hrec hnone he
    · intro hnone data hf hd
      obtain ⟨h1, h2⟩ := find_first_open um fuel c w id rec data hrec hnone hf hd
      refine ⟨h1, h2, ?_⟩
      intro id2 fuel2 rec2 b2 it2 hrec2 hb2 hit2
      exact (find_through_handle um fuel2 (withHandle c w.handles.length) _ id2 rec2
        w.handles.length hrec2 rfl).2 b2 it2 hb2 hit2

/-- C14 at the dense sample block `[A, B, C, D]` without a handle. The first call,
`Find(B)`, returns `b`, stores the new handle 0 and makes one open and one `ReadAt`.
The second call, `Find(C)` on the block and system the first call returned, returns
`c`, keeps handle 0 stored and open, and adds one `ReadAt` on handle 0 and no open. -/
theorem find_retains_handle_witness :
    Find sampleUnmarshal 2 sampleDenseBlock (sampleWorld (encodeAll sampleMarshal sampleObjs))
        (some [66]) =
      some (scanAnswer ⟨none, [], some [98], 1, [(some [66], some [98])]⟩
        (withHandle sampleDenseBlock 0)
        (((sampleWorld (encodeAll sampleMarshal sampleObjs)).opened
          (fullFilename sampleDenseBlock) (encodeAll sampleMarshal sampleObjs)).log
          (Event.readAt 0 4 4))) ∧
    (Find sampleUnmarshal 2 (withHandle sampleDenseBlock 0)
        (((sampleWorld (encodeAll sampleMarshal sampleObjs)).opened
          (fullFilename sampleDenseBlock) (encodeAll sampleMarshal sampleObjs)).log
          (Event.readAt 0 4 4))
        (some [67])).map
        (fun x => (x.b, x.err, x.c.readFile, x.w.handles.map (fun h => h.closed), x.w.trace)) =
      some (some [99], none, some 0, [false],
        [Event.openFile (fullFilename sampleDenseBlock) (some 0), Event.readAt 0 4 4,
          Event.readAt 0 8 4]) :=
  ⟨(((find_retains_handle sampleUnmarshal 2 sampleDenseBlock
      (sampleWorld (encodeAll sampleMarshal sampleObjs)) (some [66])).2
      ⟨some [66], 4, 4⟩ rfl).2.2 rfl (encodeAll sampleMarshal sampleObjs) rfl rfl).2.1
      [1, 66, 1, 98] ⟨none, [], some [98], 1, [(some [66], some [98])]⟩ rfl rfl,
    congrArg
      (Option.map fun x =>
        (x.b, x.err, x.c.readFile, x.w.handles.map (fun h => h.closed), x.w.trace))
      ((((find_retains_handle sampleUnmarshal 2 sampleDenseBlock
        (sampleWorld (encodeAll sampleMarshal sampleObjs)) (some [66])).2
        ⟨some [66], 4, 4⟩ rfl).2.2 rfl (encodeAll sampleMarshal sampleObjs) rfl rfl).2.2
        (some [67]) 2 ⟨some [67], 8, 4⟩ [1, 67, 1, 99]
        ⟨none, [], some [99], 1, [(some [67], some [99])]⟩ rfl rfl rfl)⟩

/-! ## After `Clear` -/

theorem cleared_log (c : completeBlock) (w : World) (ev : Event) (h : Cleared c w) :
    Cleared c (w.log ev) := h

theorem osOpenFile_missing (w : World) (name : String) (h : w.disk name = none) :
    ∃ e, (osOpenFile w name).1 = Except.error e := by
  unfold osOpenFile
  cases hf : w.fault w.trace.length with
  | some e => exact ⟨e, rfl⟩
  | none => exact ⟨Err.notExist, by simp only [h]⟩

theorem osReadAt_closed (w : World) (fd len : Nat) (off : Int) (hlen : 0 < len)
    (h : ∀ x, w.handles[fd]? = some x → x.closed = true) :
    ∃ e, (osReadAt w fd len off).1 = Except.error e := by
  unfold osReadAt
  cases hh : w.handles[fd]? with
  | none => exact ⟨Err.closed, rfl⟩
  | some x =>
    have hx := h x hh
    by_cases hoff : off < 0
    · exact ⟨Err.negativeOffset, by simp only [hoff, if_true]⟩
    · have h0 : ¬ len = 0 := by omega
      exact ⟨Err.closed, by simp only [hoff, h0, hx, if_true, if_false]⟩

theorem cleared_after_clear (c : completeBlock) (w : World) (h : (Clear c w).1 = none) :
    Cleared (Clear c w).2.1 (Clear c w).2.2 := by
  cases hf : c.readFile with
  | none =>
    simp only [Clear, hf] at h ⊢
    refine ⟨osRemove_ok w _ h, ?_⟩
    intro f x hfx
    rw [hf] at hfx
    exact absurd hfx (by simp)
  | some f =>
    have hok := osClose_ok w f
    simp only [Clear, hf] at h ⊢
    rcases hc : osClose w f with ⟨res, w1⟩
    rw [hc] at h hok
    cases res with
    | some e => simp at h
    | none =>
      simp only at h hok ⊢
      refine ⟨osRemove_ok w1 _ h, ?_⟩
      intro g x hg hx
      rw [hf, Option.some.injEq] at hg
      subst hg
      rw [(osRemove_trace w1 (fullFilename c)).2] at hx
      exact hok trivial x hx

theorem iterator_cleared {σ : Type} (um : List Byte → Unmarshalled) (fn : IterFunc σ)
    (fuel : Nat) (c : completeBlock) (w : World) (st : σ) (h : Cleared c w) :
    ∃ r, Iterator um fn fuel c w st = some r ∧ r.err ≠ none ∧ r.calls = [] ∧
      Cleared r.c r.w := by
  obtain ⟨e, he⟩ := osOpenFile_missing w (fullFilename c) h.1
  refine ⟨⟨some e, st, c, w.log (Event.openFile (fullFilename c) none), 0, []⟩, ?_, ?_, rfl, ?_⟩
  · unfold Iterator
    rw [osOpenFile_err w _ e he]
  · simp
  · exact cleared_log c w _ h

theorem find_cleared (um : List Byte → Unmarshalled) (fuel : Nat) (c : completeBlock)
    (w : World) (id : ByteSlice) (rec : Record) (h : Cleared c w)
    (hrec : c.records[findIndex c id]? = some rec)
    (hlen : c.readFile = none ∨ 0 < rec.Length) :
    ∃ r, Find um fuel c w id = some r ∧ r.b = none ∧ r.err ≠ none ∧ Cleared r.c r.w := by
  cases hf : c.readFile with
  | none =>
    obtain ⟨e, he⟩ := osOpenFile_missing w (fullFilename c) h.1
    refine ⟨_, find_open_failed um fuel c w id rec e hrec hf he, rfl, by simp, ?_⟩
    exact cleared_log c w _ h
  | some f =>
    have hpos : 0 < rec.Length := by
      rcases hlen with h1 | h1
      · rw [hf] at h1; exact absurd h1 (by simp)
      · exact h1
    obtain ⟨e, he⟩ := osReadAt_closed w f rec.Length (int64 rec.Start) hpos
      (fun x hx => h.2 f x hf hx)
    have hw := osReadAt_world w f rec.Length (int64 rec.Start)
    refine ⟨⟨none, some e, c, w.log (Event.readAt f (int64 rec.Start) rec.Length), 0⟩,
      ?_, rfl, by simp, cleared_log c w _ h⟩
    unfold Find
    simp only [hrec, readRecordBytes, hf, readSpan]
    rcases hr : osReadAt w f rec.Length (int64 rec.Start) with ⟨res, w1⟩
    rw [hr] at he hw
    simp only at he hw
    subst he hw
    rfl

theorem find_keeps_cleared (um : List Byte → Unmarshalled) (fuel : Nat) (c : completeBlock)
    (w : World) (id : ByteSlice) (r : FindResult) (h : Cleared c w)
    (hr : Find um fuel c w id = some r) : Cleared r.c r.w := by
  cases hrec : c.records[findIndex c id]? with
  | none =>
    unfold Find at hr
    simp only [hrec, Option.some.injEq] at hr
    rw [← hr]
    exact h
  | some rec =>
    obtain ⟨h1, h2⟩ := find_effect um fuel c w id rec r hrec hr
    rw [h1, h2]
    cases hf : c.readFile with
    | none =>
      obtain ⟨e, he⟩ := osOpenFile_missing w (fullFilename c) h.1
      simp only [readRecordBytes, hf, osOpenFile_err w _ e he]
      exact cleared_log c w _ h
    | some f =>
      simp only [readRecordBytes, hf]
      rw [(readSpan_effect c w f rec).1, (readSpan_effect c w f rec).2]
      exact cleared_log c w _ h

/-- C11 fails for `Find`. After a `Clear` that returned no error on a block with one
record `A`, `Find(Z)` returns `(nil, nil)`: the target lies above every record and
`Find` returns before it touches the file. And after a `Clear` that closed the
stored handle, `Find(A)` of a record of length zero returns `(nil, nil)` too: an
empty buffer is filled without a read. -/
theorem clear_terminal_counterexample :
    ((Clear (sampleBlock [⟨some [65], 0, 4⟩]) (sampleWorld [1, 65, 1, 97])).1 = none ∧
      (Clear (sampleBlock [⟨some [65], 0, 4⟩]) (sampleWorld [1, 65, 1, 97])).2.2.disk
        (fullFilename (sampleBlock [⟨some [65], 0, 4⟩])) = none ∧
      (Find sampleUnmarshal 0
        (Clear (sampleBlock [⟨some [65], 0, 4⟩]) (sampleWorld [1, 65, 1, 97])).2.1
        (Clear (sampleBlock [⟨some [65], 0, 4⟩]) (sampleWorld [1, 65, 1, 97])).2.2
        (some [90])).map (fun x => (x.b, x.err)) = some (none, none)) ∧
    ((Clear (sampleHeldBlock [⟨some [65], 0, 0⟩])
        (sampleHeldWorld [1, 65, 1, 97] fun _ => none)).1 = none ∧
      (Find sampleUnmarshal 1
        (Clear (sampleHeldBlock [⟨some [65], 0, 0⟩])
          (sampleHeldWorld [1, 65, 1, 97] fun _ => none)).2.1
        (Clear (sampleHeldBlock [⟨some [65], 0, 0⟩])
          (sampleHeldWorld [1, 65, 1, 97] fun _ => none)).2.2
        (some [65])).map (fun x => (x.b, x.err)) = some (none, none)) :=
  ⟨⟨rfl, rfl, rfl⟩, ⟨rfl, rfl⟩⟩

/-- C11 as amended. After a `Clear` that returned no error the block is cleared: its
backing file does not exist and the handle it holds, if any, is closed. On a cleared
block every `Iterator` returns a non-nil error without a visitor call, and every
`Find` whose index is in range returns a nil payload and a non-nil error, provided
the block holds no handle or the record has a positive length; every `Find` and
every `Iterator` leaves the block cleared, so this holds for all later calls. -/
theorem clear_is_terminal (um : List Byte → Unmarshalled) (c : completeBlock) (w : World)
    (hclear : (Clear c w).1 = none) :
    Cleared (Clear c w).2.1 (Clear c w).2.2 ∧
      ∀ (c1 : completeBlock) (w1 : World), Cleared c1 w1 →
        (∀ (σ : Type) (fn : IterFunc σ) (fuel : Nat) (st : σ),
          ∃ r, Iterator um fn fuel c1 w1 st = some r ∧ r.err ≠ none ∧ r.calls = [] ∧
            Cleared r.c r.w) ∧
        (∀ (id : ByteSlice) (fuel : Nat) (rec : Record),
          c1.records[findIndex c1 id]? = some rec → c1.readFile = none ∨ 0 < rec.Length →
          ∃ r, Find um fuel c1 w1 id = some r ∧ r.b = none ∧ r.err ≠ none ∧
            Cleared r.c r.w) ∧
        (∀ (id : ByteSlice) (fuel : Nat) (r : FindResult),
          Find um fuel c1 w1 id = some r → Cleared r.c r.w) :=
  ⟨cleared_after_clear c w hclear, fun c1 w1 h1 =>
    ⟨fun _ fn fuel st => iterator_cleared um fn fuel c1 w1 st h1,
      fun id fuel rec hrec hlen => find_cleared um fuel c1 w1 id rec h1 hrec hlen,
      fun id fuel r hr => find_keeps_cleared um fuel c1 w1 id r h1 hr⟩⟩

/-- C11 as amended at the dense block `[A, B, C, D]` that holds an open handle:
`Clear` returns no error and leaves the block cleared, and on the block and system
it leaves behind `Iterator` and `Find(B)` return a non-nil error. -/
theorem clear_is_terminal_witness :
    Cleared (Clear sampleDenseHeld sampleDenseWorld).2.1
        (Clear sampleDenseHeld sampleDenseWorld).2.2 ∧
      (∃ r, Iterator sampleUnmarshal (fun (n : Nat) _ _ => ⟨true, none, n + 1⟩) 5
          (Clear sampleDenseHeld sampleDenseWorld).2.1
          (Clear sampleDenseHeld sampleDenseWorld).2.2 0 = some r ∧
        r.err ≠ none ∧ r.calls = [] ∧ Cleared r.c r.w) ∧
      (∃ r, Find sampleUnmarshal 2 (Clear sampleDenseHeld sampleDenseWorld).2.1
          (Clear sampleDenseHeld sampleDenseWorld).2.2 (some [66]) = some r ∧
        r.b = none ∧ r.err ≠ none ∧ Cleared r.c r.w) :=
  ⟨(clear_is_terminal sampleUnmarshal sampleDenseHeld sampleDenseWorld rfl).1,
    ((clear_is_terminal sampleUnmarshal sampleDenseHeld sampleDenseWorld rfl).2 _ _
      (clear_is_terminal sampleUnmarshal sampleDenseHeld sampleDenseWorld rfl).1).1
      Nat (fun (n : Nat) _ _ => ⟨true, none, n + 1⟩) 5 0,
    ((clear_is_terminal sampleUnmarshal sampleDenseHeld sampleDenseWorld rfl).2 _ _
      (clear_is_terminal sampleUnmarshal sampleDenseHeld sampleDenseWorld rfl).1).2.1
      (some [66]) 2 ⟨some [66], 4, 4⟩ rfl (Or.inr (by decide))⟩

/-! ## The name of the backing file -/

theorem hexDigit_inj (m n : Nat) (hm : m < 16) (hn : n < 16) (h : hexDigit m = hexDigit n) :
    m = n := by
  have key : ∀ a b : Fin 16, hexDigit a.val = hexDigit b.val → a = b := by decide
  exact congrArg Fin.val (key ⟨m, hm⟩ ⟨n, hn⟩ h)

theorem hexBytes_length : ∀ (l : List Byte), (hexBytes l).length = 2 * l.length := by
  intro l
  induction l with
  | nil => rfl
  | cons b bs ih => simp only [hexBytes, List.length_cons, ih]; omega

theorem hexBytes_inj : ∀ (a b : List Byte), hexBytes a = hexBytes b → a = b := by
  intro a
  induction a with
  | nil =>
    intro b h
    cases b with
    | nil => rfl
    | cons y ys => simp [hexBytes] at h
  | cons x xs ih =>
    intro b h
    cases b with
    | nil => simp [hexBytes] at h
    | cons y ys =>
      simp only [hexBytes, List.cons.injEq] at h
      obtain ⟨h1, h2, h3⟩ := h
      have hx := x.isLt
      have hy := y.isLt
      have d1 := hexDigit_inj _ _ (by omega) (by omega) h1
      have d2 := hexDigit_inj _ _ (by omega) (by omega) h2
      have hxy : x = y := Fin.ext (by omega)
      rw [hxy, ih ys h3]

theorem split_groups (l : List Byte) :
    l = l.take 4 ++ ((l.drop 4).take 2 ++ ((l.drop 6).take 2 ++
      ((l.drop 8).take 2 ++ l.drop 10))) := by
  have h1 := (List.take_append_drop 4 l).symm
  have h2 := (List.take_append_drop 2 (l.drop 4)).symm
  have h3 := (List.take_append_drop 2 (l.drop 6)).symm
  have h4 := (List.take_append_drop 2 (l.drop 8)).symm
  rw [List.drop_drop] at h2 h3 h4
  simp only [Nat.reduceAdd] at h2 h3 h4
  rw [← h4, ← h3, ← h2, ← h1]

theorem render_inj (u v : UUID) (h : u.render = v.render) : u = v := by
  have hu := u.size
  have hv := v.size
  unfold UUID.render at h
  have len : ∀ (n k : Nat) (a b : List Byte), a.length = 16 → b.length = 16 →
      ('-' :: hexBytes ((a.drop n).take k)).length =
        ('-' :: hexBytes ((b.drop n).take k)).length := by
    intro n k a b ha hb
    simp only [List.length_cons, hexBytes_length, List.length_take, List.length_drop, ha, hb]
  have len5 : ('-' :: hexBytes (u.bytes.drop 10)).length =
      ('-' :: hexBytes (v.bytes.drop 10)).length := by
    simp only [List.length_cons, hexBytes_length, List.length_drop, hu, hv]
  obtain ⟨h, e5⟩ := List.append_inj' h len5
  obtain ⟨h, e4⟩ := List.append_inj' h (len 8 2 _ _ hu hv)
  obtain ⟨h, e3⟩ := List.append_inj' h (len 6 2 _ _ hu hv)
  obtain ⟨e1, e2⟩ := List.append_inj' h (len 4 2 _ _ hu hv)
  have b1 := hexBytes_inj _ _ e1
  have b2 := hexBytes_inj _ _ (List.cons.inj e2).2
  have b3 := hexBytes_inj _ _ (List.cons.inj e3).2
  have b4 := hexBytes_inj _ _ (List.cons.inj e4).2
  have b5 := hexBytes_inj _ _ (List.cons.inj e5).2
  have hb : u.bytes = v.bytes := by
    rw [split_groups u.bytes, split_groups v.bytes, b1, b2, b3, b4, b5]
  cases u
  cases v
  simp only at hb
  subst hb
  rfl

theorem render_length (u : UUID) : u.render.length = 36 := by
  simp only [UUID.render, List.length_append, List.length_cons, hexBytes_length,
    List.length_take, List.length_drop, u.size]
  rfl

/-- C12. The name of the backing file determines the block: two blocks under the
same base directory whose backing files have the same name have the same block
identifier and the same tenant identifier, whatever characters the tenant
identifier contains. -/
theorem fullFilename_injective (c1 c2 : completeBlock) (hdir : c1.filepath = c2.filepath)
    (hname : fullFilename c1 = fullFilename c2) :
    c1.meta.BlockID = c2.meta.BlockID ∧ c1.meta.TenantID = c2.meta.TenantID := by
  unfold fullFilename at hname
  rw [hdir] at hname
  have h := congrArg String.data hname
  simp only [String.data_append, List.append_assoc] at h
  have h1 := List.append_cancel_left (List.append_cancel_left h)
  obtain ⟨e1, e2⟩ := List.append_inj h1
    (by rw [render_length, render_length])
  exact ⟨render_inj _ _ e1, String.ext (List.append_cancel_left e2)⟩

/-- C12 at two blocks of the tenant `a:b/c` that differ in their records and in the
handle they hold. -/
theorem fullFilename_injective_witness :
    (⟨⟨sampleUUID, "a:b/c"⟩, 0, "/var/frigg", [], 0, none⟩ : completeBlock).meta.BlockID =
        (⟨⟨sampleUUID, "a:b/c"⟩, 0, "/var/frigg", [⟨some [65], 0, 4⟩], 0,
          some 0⟩ : completeBlock).meta.BlockID ∧
      (⟨⟨sampleUUID, "a:b/c"⟩, 0, "/var/frigg", [], 0, none⟩ : completeBlock).meta.TenantID =
        (⟨⟨sampleUUID, "a:b/c"⟩, 0, "/var/frigg", [⟨some [65], 0, 4⟩], 0,
          some 0⟩ : completeBlock).meta.TenantID :=
  fullFilename_injective ⟨⟨sampleUUID, "a:b/c"⟩, 0, "/var/frigg", [], 0, none⟩
    ⟨⟨sampleUUID, "a:b/c"⟩, 0, "/var/frigg", [⟨some [65], 0, 4⟩], 0, some 0⟩ rfl rfl

end Friggdb
